import Mathlib

/-!
Shallow embedding of the `go-concurrentMap` repository (package `concurrent`):
a segmented hash map with two variants, `ConcurrentMap` (`src/concurrentmap.go`,
CAS writers) and `WLockingMap` (`src/unnamed/part_000`, mutex writers).

We embed the *serial* semantics of the operations: with no concurrent writer,
every CAS in `src/concurrentmap.go` succeeds on the first attempt and every
re-check of the bucket head or of the table pointer sees an unchanged pointer,
so the retry loops of `put`/`remove`/`replace`/`replaceWithOld` collapse to
their straight-line path, which coincides with the mutex variant's code in
`src/unnamed/part_000`.  The one observable difference (`Segment.rehash`
re-checks `count > threshold` while `wLockingSegment.rehash` does not) is kept:
see `Segment.rehashUnguarded` versus `Segment.rehash` below.

Representation choices:
* A bucket chain (`Entry.next` links) is a `List (Entry K V)`; the head of the
  list is the bucket head.  `key`/`hash`/`next` immutability and node sharing,
  which are pointer-level facts, are modelled separately with an explicit heap
  (`HEntry`, `removeClones`) for the claim about `remove`'s chain surgery.
* Go `interface{}` keys and values are type parameters `K`, `V` with decidable
  equality (Go `==`); `nil` is not a value of `K` or `V`, so the `isNil`
  guards of the public API are unrepresentable and the `value == nil` re-read
  of `get` never fires.  The `value`-parameter of `Segment.remove`, which uses
  Go `nil` as a "match any value" marker, becomes an `Option V`.
* `uint32` hashes are `Nat`s; all source operations on them (`&&&`, `>>>`)
  are total on `Nat` and the source masks every index, so no `% 2^32` is
  needed for faithfulness (indices never exceed the masks).
* Go `int` / `int32` counters are `Int`; the claims under study never reach
  the `2^31` element counts at which `int32` wraparound would matter.
* `float32` load factors are modelled as `ℚ`; `int32(float32(n)*lf)` (a
  truncation of a nonnegative product) is `((n : ℚ) * lf).floor`.  The default
  `0.75` and the products appearing here are exactly representable in
  `float32`.
* The hash pipeline `hash2(hashI(key))` lives in repository files that are not
  part of the two sources; following the spec ("treated as a provided function
  `hash(key) → u32`") the map operations take the mixed hash function `hsh` as
  an explicit parameter.
-/

set_option linter.unusedSectionVars false

namespace GoConcurrent

/-- The three error kinds of the package (`concurrentmap.go` lines 54-58). -/
inductive GoError where
  | NilKeyError
  | NilValueError
  | IllegalArgError
deriving DecidableEq

/-- `DEFAULT_INITIAL_CAPACITY int = 64` (`concurrentmap.go` line 17). -/
def DEFAULT_INITIAL_CAPACITY : Nat := 64

/-- `DEFAULT_LOAD_FACTOR float32 = 0.75` (`concurrentmap.go` line 23). -/
def DEFAULT_LOAD_FACTOR : ℚ := mkRat 3 4

/-- `DEFAULT_CONCURRENCY_LEVEL int = 16` (`concurrentmap.go` line 29). -/
def DEFAULT_CONCURRENCY_LEVEL : Nat := 16

/-- `MAXIMUM_CAPACITY int = 1 << 30` (`concurrentmap.go` line 37). -/
def MAXIMUM_CAPACITY : Nat := 1 <<< 30

/-- `MAX_SEGMENTS int = 1 << 16` (`concurrentmap.go` line 43). -/
def MAX_SEGMENTS : Nat := 1 <<< 16

/-- A chain node (`Entry` of `concurrentmap.go` lines 409-414) minus its
`next` pointer: chains are `List (Entry K V)`, the list tail standing for
`next`.  `value` holds the Go value the `unsafe.Pointer` points at. -/
structure Entry (K V : Type) where
  key : K
  hash : Nat
  value : V
deriving DecidableEq

variable {K V : Type} [DecidableEq K] [DecidableEq V]

/-- The chain-walk loop `for e != nil && (e.hash != hash || key != e.key)
{ e = e.next }` shared by `get`, `containsKey`, `put`, `remove`, `replace`
and `replaceWithOld`: first entry matching on both hash and key. -/
def findEntry (hash : Nat) (key : K) : List (Entry K V) → Option (Entry K V)
  | [] => none
  | e :: rest =>
    if e.hash = hash ∧ e.key = key then some e else findEntry hash key rest

/-- `e.storeValue(&value)` on the first matching entry of a chain: the list
form of the in-place atomic value swap done by `put`/`replace`/
`replaceWithOld` when a matching entry exists. -/
def storeChain (hash : Nat) (key : K) (v : V) : List (Entry K V) → List (Entry K V)
  | [] => []
  | e :: rest =>
    if e.hash = hash ∧ e.key = key then { e with value := v } :: rest
    else e :: storeChain hash key v rest

/-- Decomposition of a chain at the first `(hash, key)` match, as walked by
`Segment.remove`: the entries strictly before the match (`p` from `first` to
`e` in source order), the match `e`, and the entries after it (`e.next`). -/
def splitAtMatch (hash : Nat) (key : K) :
    List (Entry K V) → Option (List (Entry K V) × Entry K V × List (Entry K V))
  | [] => none
  | e :: rest =>
    if e.hash = hash ∧ e.key = key then some ([], e, rest)
    else (splitAtMatch hash key rest).map fun pms => (e :: pms.1, pms.2.1, pms.2.2)

/-- A segment (`Segment` of `concurrentmap.go` lines 432-466 and
`wLockingSegment` of `part_000` lines 383-417).  `table` is the bucket array,
each slot holding a chain; `pSumCount` is handled by returning a delta to the
owning map.  The mutex has no serial content. -/
structure Segment (K V : Type) where
  count : Int
  threshold : Int
  table : List (List (Entry K V))
  loadFactor : ℚ
deriving DecidableEq

/-- `int32(float32(len(newTable)) * this.loadFactor)`: threshold computation
of `setTable` and `rehash`.  The Go conversion truncates a nonnegative
`float32` product; over `ℚ` this is the floor `⌊len * lf⌋`, written as a
floor division on the rational's fields so that the kernel can evaluate it
(`thresholdOf_eq_floor` below proves it is that floor). -/
def thresholdOf (len : Nat) (lf : ℚ) : Int := Int.fdiv ((len : Int) * lf.num) (lf.den : Int)

/-- New-table index `e.hash & sizeMask` used throughout `rehash`. -/
def newIdx (mask : Nat) (e : Entry K V) : Nat := e.hash &&& mask

/-- The `lastRun`/`lastIdx` scan of `rehash` (`concurrentmap.go` lines
518-532): splits a chain into the part strictly before `lastRun` and the
maximal trailing run of entries sharing one new-table index.  `lastRun` is the
last node at which the running index changed, i.e. the start of that maximal
constant-index suffix. -/
def splitLastRun (mask : Nat) : List (Entry K V) → List (Entry K V) × List (Entry K V)
  | [] => ([], [])
  | [e] => ([], [e])
  | e :: f :: rest =>
    let s := splitLastRun mask (f :: rest)
    if s.1 = [] ∧ e.hash &&& mask = f.hash &&& mask then ([], e :: f :: rest)
    else (e :: s.1, s.2)

/-- The clone loop of `rehash` (`concurrentmap.go` lines 536-540): each entry
`p` strictly before `lastRun`, in chain order, is cloned onto the head of its
new bucket `p.hash & sizeMask`. -/
def cloneInto (mask : Nat) : List (Entry K V) → List (List (Entry K V)) → List (List (Entry K V))
  | [], nt => nt
  | p :: ps, nt => cloneInto mask ps (nt.set (p.hash &&& mask) (p :: nt.getD (p.hash &&& mask) []))

/-- One iteration of `rehash`'s bucket loop (`concurrentmap.go` lines
494-543): nothing for an empty slot; a single node is stored directly at its
new index; otherwise the `lastRun` suffix is shared into its slot and the
preceding entries are cloned in. -/
def processBucket (mask : Nat) (chain : List (Entry K V)) (nt : List (List (Entry K V))) :
    List (List (Entry K V)) :=
  match chain with
  | [] => nt
  | [e] => nt.set (e.hash &&& mask) [e]
  | e :: f :: rest =>
    match splitLastRun mask (e :: f :: rest) with
    | (pre, r :: run) => cloneInto mask pre (nt.set (r.hash &&& mask) (r :: run))
    | (_, []) => nt

/-- The redistribution of `rehash`: a new table of twice the length
(`make([]unsafe.Pointer, oldCapacity<<1)`), `sizeMask := len(newTable)-1`,
and the bucket loop over `i := 0; i < oldCapacity`. -/
def rehashTable (t : List (List (Entry K V))) : List (List (Entry K V)) :=
  (List.range t.length).foldl
    (fun nt i => processBucket (2 * t.length - 1) (t.getD i []) nt)
    (List.replicate (2 * t.length) [])

/-- `wLockingSegment.rehash` (`part_000` lines 419-494): no guard, returns
unchanged at `MAXIMUM_CAPACITY`, otherwise doubles the table and recomputes
the threshold.  (`part_000` stores the threshold before the redistribution,
`concurrentmap.go` after it; the resulting state is the same.) -/
def Segment.rehashUnguarded (s : Segment K V) : Segment K V :=
  if s.table.length ≥ MAXIMUM_CAPACITY then s
  else { s with
    table := rehashTable s.table
    threshold := thresholdOf (2 * s.table.length) s.loadFactor }

/-- `Segment.rehash` (`concurrentmap.go` lines 468-547): same as the
`wLockingSegment` version but behind the re-check
`count > threshold` (line 471; the lock/unlock pair at lines 469-470 has no
serial effect). -/
def Segment.rehash (s : Segment K V) : Segment K V :=
  if s.count > s.threshold then s.rehashUnguarded else s

/-- `Segment.get` (`concurrentmap.go` lines 603-619, `part_000` lines
547-562).  Values are never `nil`, so the `readValueUnderLock` re-read never
fires in the serial model. -/
def Segment.get (s : Segment K V) (key : K) (hash : Nat) : Option V :=
  if s.count ≠ 0 then
    match findEntry hash key (s.table.getD (hash &&& (s.table.length - 1)) []) with
    | some e => some e.value
    | none => none
  else none

/-- `Segment.containsKey` (`concurrentmap.go` lines 621-633). -/
def Segment.containsKey (s : Segment K V) (key : K) (hash : Nat) : Bool :=
  if s.count ≠ 0 then
    (findEntry hash key (s.table.getD (hash &&& (s.table.length - 1)) [])).isSome
  else false

/-- The body of `put` after the capacity check (`concurrentmap.go` lines
731-793, `part_000` lines 623-643): either update the matching entry's value
(return it unchanged under `onlyIfAbsent`) or push a fresh entry as the
bucket head and bump the counts.  Returns `(oldValue, new segment, delta
added to the map total)`. -/
def Segment.putCore (s1 : Segment K V) (key : K) (hash : Nat) (value : V)
    (onlyIfAbsent : Bool) : Option V × Segment K V × Int :=
  let tab := s1.table
  let idx := hash &&& (tab.length - 1)
  let chain := tab.getD idx []
  match findEntry hash key chain with
  | some e =>
    if onlyIfAbsent then (some e.value, s1, 0)
    else (some e.value, { s1 with table := tab.set idx (storeChain hash key value chain) }, 0)
  | none =>
    (none,
     { s1 with table := tab.set idx (⟨key, hash, value⟩ :: chain), count := s1.count + 1 },
     1)

/-- `Segment.put` (`concurrentmap.go` lines 725-794, `part_000` lines
613-644), serial path: `c := count; if c > threshold { rehash() }`, then the
insertion body on the (possibly grown) table. -/
def Segment.put (s : Segment K V) (key : K) (hash : Nat) (value : V) (onlyIfAbsent : Bool) :
    Option V × Segment K V × Int :=
  (if s.count > s.threshold then s.rehash else s).putCore key hash value onlyIfAbsent

/-- `Segment.remove` (`concurrentmap.go` lines 799-865, `part_000` lines
649-681), serial path: locate the first `(hash, key)` match; if the `value`
parameter is `nil` (`none`) or equals the match's value, publish
the rebuilt chain (clones of the preceding entries, in reversed order, ahead
of the shared tail) and decrement the counts. -/
def Segment.remove (s : Segment K V) (key : K) (hash : Nat) (value : Option V) :
    Option V × Segment K V × Int :=
  let tab := s.table
  let idx := hash &&& (tab.length - 1)
  match splitAtMatch hash key (tab.getD idx []) with
  | some pms =>
    if value = none ∨ value = some pms.2.1.value then
      (some pms.2.1.value,
       { s with table := tab.set idx (pms.1.reverse ++ pms.2.2), count := s.count - 1 },
       -1)
    else (none, s, 0)
  | none => (none, s, 0)

/-- `Segment.replace` (`concurrentmap.go` lines 681-719, `part_000` lines
594-607), serial path: swap the value of the matching entry, if any. -/
def Segment.replace (s : Segment K V) (key : K) (hash : Nat) (newValue : V) :
    Option V × Segment K V :=
  let tab := s.table
  let idx := hash &&& (tab.length - 1)
  let chain := tab.getD idx []
  match findEntry hash key chain with
  | some e => (some e.value, { s with table := tab.set idx (storeChain hash key newValue chain) })
  | none => (none, s)

/-- `Segment.replaceWithOld` (`concurrentmap.go` lines 635-679, `part_000`
lines 577-592), serial path: store `newValue` only when the matching entry
currently holds `oldValue`. -/
def Segment.replaceWithOld (s : Segment K V) (key : K) (hash : Nat) (oldValue newValue : V) :
    Bool × Segment K V :=
  let tab := s.table
  let idx := hash &&& (tab.length - 1)
  let chain := tab.getD idx []
  match findEntry hash key chain with
  | some e =>
    if oldValue = e.value then
      (true, { s with table := tab.set idx (storeChain hash key newValue chain) })
    else (false, s)
  | none => (false, s)

/-- `Segment.clear` (`concurrentmap.go` lines 899-912): empty every slot,
zero the count, subtract the old count from the map total. -/
def Segment.clear (s : Segment K V) : Segment K V × Int :=
  if s.count ≠ 0 then
    ({ s with table := List.replicate s.table.length [], count := 0 }, -s.count)
  else (s, 0)

/-! ## The map level -/

/-- `ConcurrentMap` (`concurrentmap.go` lines 61-84) and `WLockingMap`
(`part_000` lines 12-35): a fixed segment array, the shared total counter and
the routing parameters.  The serial behaviour of the two variants coincides,
so one structure embeds both. -/
structure CMap (K V : Type) where
  count : Int
  segmentMask : Nat
  segmentShift : Nat
  segments : List (Segment K V)
deriving DecidableEq

/-- Index of `segmentFor` (`concurrentmap.go` lines 91-96):
`(hash >> segmentShift) & segmentMask`. -/
def CMap.segmentIdx (m : CMap K V) (hash : Nat) : Nat :=
  (hash >>> m.segmentShift) &&& m.segmentMask

/-- `ConcurrentMap.IsEmpty` (`concurrentmap.go` lines 101-103) and
`WLockingMap.IsEmpty` (`part_000` lines 52-54), verbatim:
`return atomic.LoadInt32(&this.count) > 0`. -/
def CMap.IsEmpty (m : CMap K V) : Bool := m.count > 0

/-- `ConcurrentMap.Size` (`concurrentmap.go` lines 108-110). -/
def CMap.Size (m : CMap K V) : Int := m.count

/-- A zero segment, used as the (unreachable) default when indexing the
segment array: the source indexes `segments` directly, and the routing mask
keeps the index in range. -/
def defaultSeg : Segment K V := { count := 0, threshold := 0, table := [], loadFactor := 0 }

/-- The segment `segmentFor` returns. -/
def CMap.segAt (m : CMap K V) (hash : Nat) : Segment K V :=
  m.segments.getD (m.segmentIdx hash) defaultSeg

/-- Route an operation through `segmentFor` and fold the returned count delta
into the map total, as every write path of the source does via `pSumCount`. -/
def CMap.atSegment (m : CMap K V) (hash : Nat)
    (f : Segment K V → α × Segment K V × Int) : α × CMap K V :=
  let i := m.segmentIdx hash
  let r := f (m.segAt hash)
  (r.1, { m with segments := m.segments.set i r.2.1, count := m.count + r.2.2 })

/-- `ConcurrentMap.Get` (`concurrentmap.go` lines 116-123); the `isNil` guard
is unrepresentable for a typed key.  `hsh` is the provided mixed hash
`hash2(hashI(·))`. -/
def CMap.Get (hsh : K → Nat) (m : CMap K V) (key : K) : Option V :=
  (m.segAt (hsh key)).get key (hsh key)

/-- `ConcurrentMap.ContainsKey` (`concurrentmap.go` lines 132-139). -/
def CMap.ContainsKey (hsh : K → Nat) (m : CMap K V) (key : K) : Bool :=
  (m.segAt (hsh key)).containsKey key (hsh key)

/-- `ConcurrentMap.Put` (`concurrentmap.go` lines 154-164): returns the
previous value and the new map. -/
def CMap.Put (hsh : K → Nat) (m : CMap K V) (key : K) (value : V) : Option V × CMap K V :=
  m.atSegment (hsh key) fun s => s.put key (hsh key) value false

/-- `ConcurrentMap.PutIfAbsent` (`concurrentmap.go` lines 177-187). -/
def CMap.PutIfAbsent (hsh : K → Nat) (m : CMap K V) (key : K) (value : V) :
    Option V × CMap K V :=
  m.atSegment (hsh key) fun s => s.put key (hsh key) value true

/-- `ConcurrentMap.Remove` (`concurrentmap.go` lines 213-220): delegates with
a `nil` value, i.e. match on key only. -/
def CMap.Remove (hsh : K → Nat) (m : CMap K V) (key : K) : Option V × CMap K V :=
  m.atSegment (hsh key) fun s => s.remove key (hsh key) none

/-- `ConcurrentMap.RemoveEntry` (`concurrentmap.go` lines 228-238):
`segment.remove(key, hash, value) != nil`. -/
def CMap.RemoveEntry (hsh : K → Nat) (m : CMap K V) (key : K) (value : V) :
    Bool × CMap K V :=
  let r := m.atSegment (hsh key) fun s => s.remove key (hsh key) (some value)
  (r.1.isSome, r.2)

/-- `ConcurrentMap.CompareAndReplace` (`concurrentmap.go` lines 247-257). -/
def CMap.CompareAndReplace (hsh : K → Nat) (m : CMap K V) (key : K)
    (oldValue newValue : V) : Bool × CMap K V :=
  m.atSegment (hsh key) fun s =>
    let r := s.replaceWithOld key (hsh key) oldValue newValue
    (r.1, r.2, 0)

/-- `ConcurrentMap.Replace` (`concurrentmap.go` lines 266-276). -/
def CMap.Replace (hsh : K → Nat) (m : CMap K V) (key : K) (value : V) :
    Option V × CMap K V :=
  m.atSegment (hsh key) fun s =>
    let r := s.replace key (hsh key) value
    (r.1, r.2, 0)

/-- `ConcurrentMap.Clear` (`concurrentmap.go` lines 281-285): clear each
segment in turn, subtracting each returned count from the total. -/
def CMap.Clear (m : CMap K V) : CMap K V :=
  { m with
    segments := m.segments.map (fun s => (s.clear).1)
    count := m.count + (m.segments.map (fun s => (s.clear).2)).sum }

/-! ## Construction -/

/-- `newSegment` (`concurrentmap.go` lines 914-922): a fresh segment whose
table has `initialCapacity` empty slots and whose threshold comes from
`setTable`. -/
def newSegment (initialCapacity : Nat) (lf : ℚ) : Segment K V :=
  { count := 0
    threshold := thresholdOf initialCapacity lf
    table := List.replicate initialCapacity []
    loadFactor := lf }

/-- The power-of-two sizing loops of `newConcurrentMap3`
(`sshift/ssize` at lines 305-310 and `cap` at lines 325-328 of
`concurrentmap.go`): starting from `ssize`, double (and bump `sshift`) while
below `target`.  The `fuel` argument only makes the recursion structural;
call sites pass `64`, enough for every `target ≤ 2^30` reachable from the
clamped inputs, so the loop always exits by its own guard. -/
def growLoop (target : Nat) : Nat → Nat → Nat → Nat × Nat
  | 0, sshift, ssize => (sshift, ssize)
  | fuel + 1, sshift, ssize =>
    if ssize < target then growLoop target fuel (sshift + 1) (ssize <<< 1)
    else (sshift, ssize)

/-- `newConcurrentMap3` (`concurrentmap.go` lines 292-334) and
`newWLockingMap3` (`part_000` lines 243-285): validation, clamping, segment
sizing and eager segment construction.  The Go `panic(IllegalArgError)`
becomes `Except.error`.  Each loop iteration builds an identical fresh
segment, hence `List.replicate`. -/
def newConcurrentMap3 (initialCapacity : Int) (loadFactor : ℚ)
    (concurrencyLevel : Int) : Except GoError (CMap K V) :=
  if ¬loadFactor > 0 ∨ initialCapacity < 0 ∨ concurrencyLevel ≤ 0 then
    .error .IllegalArgError
  else
    let cl : Nat :=
      if concurrencyLevel > (MAX_SEGMENTS : Int) then MAX_SEGMENTS else concurrencyLevel.toNat
    let sr := growLoop cl 64 0 1
    let sshift := sr.1
    let ssize := sr.2
    let ic : Nat :=
      if initialCapacity > (MAXIMUM_CAPACITY : Int) then MAXIMUM_CAPACITY
      else initialCapacity.toNat
    let c0 := ic / ssize
    let c := if c0 * ssize < ic then c0 + 1 else c0
    let cap := (growLoop c 64 0 1).2
    .ok
      { count := 0
        segmentShift := 32 - sshift
        segmentMask := ssize - 1
        segments := List.replicate ssize (newSegment cap loadFactor) }

/-- The dynamic type of an optional construction parameter
(`paras ...interface{}`): a Go `int`, a Go `float32`, or a value of any other
dynamic type (e.g. an untyped float literal, which is `float64`). -/
inductive GoVal where
  | vInt (n : Int)
  | vFloat32 (x : ℚ)
  | vOther (tag : Nat)
deriving DecidableEq

/-- `NewConcurrentMap` (`concurrentmap.go` lines 358-384) and
`NewWLockingMap` (`part_000` lines 309-335): defaults, then for each present
parameter a type switch that panics with `IllegalArgError` on a failed
type claim, then `newConcurrentMap3`. -/
def NewConcurrentMap (paras : List GoVal) : Except GoError (CMap K V) := do
  let cap : Int ←
    if paras.length ≥ 1 then
      match paras.getD 0 (.vOther 0) with
      | .vInt n => pure n
      | _ => throw .IllegalArgError
    else pure (DEFAULT_INITIAL_CAPACITY : Int)
  let factor : ℚ ←
    if paras.length ≥ 2 then
      match paras.getD 1 (.vOther 0) with
      | .vFloat32 x => pure x
      | _ => throw .IllegalArgError
    else pure DEFAULT_LOAD_FACTOR
  let lvl : Int ←
    if paras.length ≥ 3 then
      match paras.getD 2 (.vOther 0) with
      | .vInt n => pure n
      | _ => throw .IllegalArgError
    else pure (DEFAULT_CONCURRENCY_LEVEL : Int)
  newConcurrentMap3 cap factor lvl

/-! ## Iterator -/

/-- The serial trace of `MapIterator` (`concurrentmap.go` lines 926-995):
`NextEntry` results in order.  `advance` walks segments from the highest
index down, skips a segment whose `count` is `0`, and inside a segment walks
buckets from the highest index down, following each chain head to tail. -/
def CMap.iterEntries (m : CMap K V) : List (Entry K V) :=
  m.segments.reverse.flatMap fun s =>
    if s.count ≠ 0 then s.table.reverse.flatten else []

/-! ## Well-formedness and reachability -/

/-- Chain uniqueness (spec invariant S3): no two entries of one chain agree
on both `hash` and `key`. -/
def chainUnique (c : List (Entry K V)) : Prop :=
  c.Pairwise fun a b => ¬(a.hash = b.hash ∧ a.key = b.key)

/-- Structural well-formedness of a bucket table: power-of-two length, every
entry sits in the bucket its hash selects, and chains are duplicate-free. -/
structure TableWF (t : List (List (Entry K V))) : Prop where
  pow : ∃ m, t.length = 2 ^ m
  placed : ∀ i, ∀ e ∈ t.getD i [], e.hash &&& (t.length - 1) = i
  uniq : ∀ i, chainUnique (t.getD i [])

/-- The number of live entries of a table, as an `Int` for comparison with
the `int32` counters. -/
def totalEntries (t : List (List (Entry K V))) : Int := (t.flatten.length : Int)

/-- Per-segment well-formedness: a well-formed table whose live-entry count
the `count` field agrees with (spec invariant S4). -/
structure SegWF (s : Segment K V) : Prop where
  twf : TableWF s.table
  cnt : s.count = totalEntries s.table

/-- Every entry of the table carries the mixed hash of its own key; true of
all entries the API creates, since `put` stores `hash2(hashI(key))`. -/
def hashOK (hsh : K → Nat) (t : List (List (Entry K V))) : Prop :=
  ∀ chain ∈ t, ∀ e ∈ chain, e.hash = hsh e.key

/-- Map-level well-formedness: the routing mask stays inside the segment
array and each segment is well-formed. -/
structure MapWF (hsh : K → Nat) (m : CMap K V) : Prop where
  maskLt : m.segmentMask < m.segments.length
  segs : ∀ s ∈ m.segments, SegWF s
  hashes : ∀ s ∈ m.segments, hashOK hsh s.table

/-- Map states reachable by a serial run: a constructed map followed by any
sequence of the public write operations (rehashes happen inside `put`). -/
inductive Reachable (hsh : K → Nat) : CMap K V → Prop where
  | base (initialCapacity : Int) (loadFactor : ℚ) (concurrencyLevel : Int) (m : CMap K V) :
      newConcurrentMap3 initialCapacity loadFactor concurrencyLevel = .ok m →
      Reachable hsh m
  | put (m : CMap K V) (k : K) (v : V) :
      Reachable hsh m → Reachable hsh (m.Put hsh k v).2
  | putIfAbsent (m : CMap K V) (k : K) (v : V) :
      Reachable hsh m → Reachable hsh (m.PutIfAbsent hsh k v).2
  | remove (m : CMap K V) (k : K) :
      Reachable hsh m → Reachable hsh (m.Remove hsh k).2
  | removeEntry (m : CMap K V) (k : K) (v : V) :
      Reachable hsh m → Reachable hsh (m.RemoveEntry hsh k v).2
  | replace (m : CMap K V) (k : K) (v : V) :
      Reachable hsh m → Reachable hsh (m.Replace hsh k v).2
  | compareAndReplace (m : CMap K V) (k : K) (v w : V) :
      Reachable hsh m → Reachable hsh (m.CompareAndReplace hsh k v w).2
  | clear (m : CMap K V) :
      Reachable hsh m → Reachable hsh m.Clear

/-! ## Heap model of chains, for the pointer-level facts about `remove`

Here an `Entry` keeps its `next` pointer, addresses are indices into an
allocation list, and allocating `&Entry{...}` appends.  This makes node
identity, freshness and mutation observable, which the pure list model
cannot express. -/

/-- `Entry` with its `next` pointer (an address), for the heap model. -/
structure HEntry (K V : Type) where
  key : K
  hash : Nat
  value : V
  next : Option Nat
deriving DecidableEq

/-- `linkedB heap addrs stop`: the addresses `addrs` form a chain in `heap`,
each entry's `next` pointing at the following address, the last one at
`stop`. -/
def linkedB (heap : List (HEntry K V)) : List Nat → Option Nat → Bool
  | [], _ => true
  | a :: rest, stop =>
    match heap.get? a with
    | some e => (e.next == Option.or rest.head? stop) && linkedB heap rest stop
    | none => false

/-- The `(key, hash, value)` fields of the entries at `addrs`. -/
def entriesOf (heap : List (HEntry K V)) (addrs : List Nat) : List (K × Nat × V) :=
  addrs.filterMap fun a => (heap.get? a).map fun e => (e.key, e.hash, e.value)

/-- The clone loop of `Segment.remove` (`concurrentmap.go` lines 826-829):
`newFirst := e.next; for p := first; p != e; p = p.next { newFirst =
&Entry{p.key, p.hash, p.value, newFirst} }`.  `addrs` are the addresses of
the entries strictly before the removed one, in chain order; each step
allocates a clone (appends to the heap) whose `next` is the previous
`newFirst`.  Returns the final heap and `newFirst`. -/
def removeClones (heap : List (HEntry K V)) : List Nat → Option Nat →
    List (HEntry K V) × Option Nat
  | [], newFirst => (heap, newFirst)
  | p :: ps, newFirst =>
    match heap.get? p with
    | some pe =>
      removeClones (heap ++ [⟨pe.key, pe.hash, pe.value, newFirst⟩]) ps (some heap.length)
    | none => (heap, newFirst)

/-! ## Concrete instances used by witnesses

The repository's hash pipeline `hash2 ∘ hashI` lives outside the two source
files; per spec §1 the mixer is deterministic and semantically
insignificant, so concrete computations use the identity as the provided
mixed hash. -/

/-- A concrete stand-in for the provided mixed hash on `Nat` keys. -/
def natHash : Nat → Nat := fun n => n

/-- The map `NewConcurrentMap()` builds with all defaults: capacity 64, load
factor 0.75, concurrency level 16, hence 16 segments of per-segment
capacity 4 and `segmentShift = 28`, `segmentMask = 15`. -/
def defaultNatMap : CMap Nat String :=
  { count := 0
    segmentShift := 28
    segmentMask := 15
    segments := List.replicate 16 (newSegment 4 (mkRat 3 4)) }

/-- Scenario state after `Put(1,"a"); Put(2,"b"); Put(3,"c")`. -/
def c2afterPuts : CMap Nat String :=
  (((defaultNatMap.Put natHash 1 "a").2.Put natHash 2 "b").2.Put natHash 3 "c").2

/-- Scenario state after `CompareAndReplace(2, "b", "B")`. -/
def c2afterCAR : CMap Nat String :=
  (c2afterPuts.CompareAndReplace natHash 2 "b" "B").2

/-- Scenario state after the failing `RemoveEntry(3, "x")`. -/
def c2afterRE : CMap Nat String :=
  (c2afterCAR.RemoveEntry natHash 3 "x").2

/-- Scenario state after `Remove(3)`. -/
def c2final : CMap Nat String :=
  (c2afterRE.Remove natHash 3).2

/-- `newConcurrentMap3 1 1 1`: one segment of capacity 1 with threshold 1. -/
def c4base : CMap Nat String :=
  { count := 0
    segmentShift := 32
    segmentMask := 0
    segments := List.replicate 1 (newSegment 1 1) }

/-- `c4base` after `Put(1, "a")`: the single segment holds one entry, with
`count = threshold = 1`. -/
def c4map : CMap Nat String := (c4base.Put natHash 1 "a").2

/-- A well-formed one-bucket segment with `count = 2 > threshold = 1`. -/
def c4wseg : Segment Nat String :=
  { count := 2
    threshold := 1
    table := [[⟨1, 1, "a"⟩, ⟨3, 3, "b"⟩]]
    loadFactor := 1 }

/-- A well-formed two-bucket segment holding three entries. -/
def c6seg : Segment Nat String :=
  { count := 3
    threshold := 1
    table := [[⟨0, 0, "x"⟩], [⟨1, 1, "y"⟩, ⟨5, 5, "z"⟩]]
    loadFactor := 1 }

/-- The map `newConcurrentMap3 0 0.75 16` builds: 16 segments, each of
capacity 1 (the zero initial capacity rounds up to one slot). -/
def c9map : CMap Nat String :=
  { count := 0
    segmentShift := 28
    segmentMask := 15
    segments := List.replicate 16 (newSegment 1 (mkRat 3 4)) }

/-- A three-entry heap holding the chain `0 → 1 → 2 → nil`. -/
def c5heap : List (HEntry Nat String) :=
  [⟨1, 1, "a", some 1⟩, ⟨2, 2, "b", some 2⟩, ⟨3, 3, "c", none⟩]

/-- A decidable check implying `SegWF`, for concrete witnesses. -/
def segWFb (s : Segment K V) : Bool :=
  ((List.range 31).any fun j => s.table.length == 2 ^ j) &&
  ((List.range s.table.length).all fun i =>
    (s.table.getD i []).all fun e => e.hash &&& (s.table.length - 1) == i) &&
  ((List.range s.table.length).all fun i =>
    decide ((s.table.getD i []).Pairwise fun a b => ¬(a.hash = b.hash ∧ a.key = b.key))) &&
  (s.count == totalEntries s.table)

/-! ## Chain lemmas -/

/-- `thresholdOf` computes exactly the floor of `len * lf`, justifying the
field-level definition. -/
theorem thresholdOf_eq_floor (len : Nat) (lf : ℚ) :
    thresholdOf len lf = ⌊(len : ℚ) * lf⌋ := by
  have hlf : lf = ((lf.num : ℚ)) / ((lf.den : ℚ)) := (Rat.num_div_den lf).symm
  have h : (len : ℚ) * lf = ((((len : Int) * lf.num : Int) : ℚ) / ((lf.den : ℕ) : ℚ)) := by
    push_cast
    rw [mul_div_assoc]
    conv_lhs => rw [hlf]
  rw [thresholdOf, Int.fdiv_eq_ediv _ (by positivity), h, Rat.floor_intCast_div_natCast]

theorem findEntry_eq_none_iff {hash : Nat} {key : K} {c : List (Entry K V)} :
    findEntry hash key c = none ↔ ∀ e ∈ c, ¬(e.hash = hash ∧ e.key = key) := by
  induction c with
  | nil => simp [findEntry]
  | cons e rest ih =>
    by_cases hm : e.hash = hash ∧ e.key = key
    · rw [findEntry, if_pos hm]
      constructor
      · intro h; exact absurd h (by simp)
      · intro h; exact absurd hm (h e (List.mem_cons_self e rest))
    · rw [findEntry, if_neg hm, ih]
      constructor
      · intro h a ha
        rcases List.mem_cons.1 ha with rfl | ha
        · exact hm
        · exact h a ha
      · intro h a ha
        exact h a (List.mem_cons_of_mem _ ha)

theorem findEntry_eq_some {hash : Nat} {key : K} {c : List (Entry K V)} {e : Entry K V}
    (h : findEntry hash key c = some e) : e ∈ c ∧ e.hash = hash ∧ e.key = key := by
  induction c with
  | nil => simp [findEntry] at h
  | cons f rest ih =>
    by_cases hm : f.hash = hash ∧ f.key = key
    · simp [findEntry, hm] at h
      exact ⟨by simp [← h], h ▸ hm⟩
    · simp [findEntry, hm] at h
      rcases ih h with ⟨h1, h2⟩
      exact ⟨List.mem_cons_of_mem _ h1, h2⟩

theorem findEntry_cons_self {hash : Nat} {key : K} {v : V} {c : List (Entry K V)} :
    findEntry hash key ((⟨key, hash, v⟩ : Entry K V) :: c) = some ⟨key, hash, v⟩ := by
  simp [findEntry]

theorem storeChain_length {hash : Nat} {key : K} {v : V} {c : List (Entry K V)} :
    (storeChain hash key v c).length = c.length := by
  induction c with
  | nil => rfl
  | cons e rest ih =>
    by_cases hm : e.hash = hash ∧ e.key = key <;> simp [storeChain, hm, ih]

theorem mem_storeChain {hash : Nat} {key : K} {v : V} {c : List (Entry K V)} {a : Entry K V}
    (h : a ∈ storeChain hash key v c) :
    a ∈ c ∨ ∃ e ∈ c, e.hash = hash ∧ e.key = key ∧ a = { e with value := v } := by
  induction c with
  | nil => simp [storeChain] at h
  | cons e rest ih =>
    by_cases hm : e.hash = hash ∧ e.key = key
    · rw [storeChain, if_pos hm] at h
      rcases List.mem_cons.1 h with h | h
      · exact Or.inr ⟨e, List.mem_cons_self e rest, hm.1, hm.2, h⟩
      · exact Or.inl (List.mem_cons_of_mem _ h)
    · rw [storeChain, if_neg hm] at h
      rcases List.mem_cons.1 h with h | h
      · exact Or.inl (h ▸ List.mem_cons_self e rest)
      · rcases ih h with h1 | ⟨f, hf, h2⟩
        · exact Or.inl (List.mem_cons_of_mem _ h1)
        · exact Or.inr ⟨f, List.mem_cons_of_mem _ hf, h2⟩

theorem findEntry_storeChain {hash : Nat} {key : K} {v : V} {c : List (Entry K V)} :
    findEntry hash key (storeChain hash key v c) =
      (findEntry hash key c).map fun e => { e with value := v } := by
  induction c with
  | nil => simp [findEntry, storeChain]
  | cons e rest ih =>
    by_cases hm : e.hash = hash ∧ e.key = key <;>
      simp [findEntry, storeChain, hm, ih]

theorem chainUnique_storeChain {hash : Nat} {key : K} {v : V} {c : List (Entry K V)}
    (h : chainUnique c) : chainUnique (storeChain hash key v c) := by
  induction c with
  | nil => exact h
  | cons e rest ih =>
    rw [chainUnique, List.pairwise_cons] at h
    by_cases hm : e.hash = hash ∧ e.key = key
    · rw [chainUnique, storeChain, if_pos hm, List.pairwise_cons]
      exact ⟨fun b hb => h.1 b hb, h.2⟩
    · rw [chainUnique, storeChain, if_neg hm, List.pairwise_cons]
      constructor
      · intro b hb
        rcases mem_storeChain hb with h1 | ⟨f, hf, h2, h3, h4⟩
        · exact h.1 b h1
        · subst h4
          simpa using h.1 f hf
      · exact ih h.2

theorem splitAtMatch_spec {hash : Nat} {key : K} {c pre suf : List (Entry K V)}
    {e : Entry K V} (h : splitAtMatch hash key c = some (pre, e, suf)) :
    c = pre ++ e :: suf ∧ (∀ a ∈ pre, ¬(a.hash = hash ∧ a.key = key)) ∧
      e.hash = hash ∧ e.key = key := by
  induction c generalizing pre with
  | nil => simp [splitAtMatch] at h
  | cons f rest ih =>
    by_cases hm : f.hash = hash ∧ f.key = key
    · rw [splitAtMatch, if_pos hm] at h
      simp only [Option.some.injEq, Prod.mk.injEq] at h
      obtain ⟨h1, h2, h3⟩ := h
      subst h1; subst h2; subst h3
      simpa using hm
    · rw [splitAtMatch, if_neg hm] at h
      rcases ho : splitAtMatch hash key rest with _ | ⟨⟨pre1, e1, suf1⟩⟩ <;> rw [ho] at h
      · simp at h
      · simp only [Option.map_some', Option.some.injEq, Prod.mk.injEq] at h
        obtain ⟨h1, h2, h3⟩ := h
        subst h2; subst h3
        rcases ih ho with ⟨hc, hpre, hm2⟩
        subst hc
        refine ⟨by simp [← h1], ?_, hm2⟩
        intro a ha
        rw [← h1] at ha
        rcases List.mem_cons.1 ha with h4 | h4
        · exact h4 ▸ hm
        · exact hpre a h4

theorem splitAtMatch_eq_none_iff {hash : Nat} {key : K} {c : List (Entry K V)} :
    splitAtMatch hash key c = none ↔ ∀ e ∈ c, ¬(e.hash = hash ∧ e.key = key) := by
  induction c with
  | nil => simp [splitAtMatch]
  | cons f rest ih =>
    by_cases hm : f.hash = hash ∧ f.key = key
    · rw [splitAtMatch, if_pos hm]
      constructor
      · intro h; exact absurd h (by simp)
      · intro h; exact absurd hm (h f (List.mem_cons_self f rest))
    · rw [splitAtMatch, if_neg hm, Option.map_eq_none', ih]
      constructor
      · intro h a ha
        rcases List.mem_cons.1 ha with rfl | ha
        · exact hm
        · exact h a ha
      · intro h a ha
        exact h a (List.mem_cons_of_mem _ ha)

theorem splitAtMatch_of_findEntry {hash : Nat} {key : K} {c : List (Entry K V)}
    {e : Entry K V} (h : findEntry hash key c = some e) :
    ∃ pre suf, splitAtMatch hash key c = some (pre, e, suf) := by
  induction c with
  | nil => simp [findEntry] at h
  | cons f rest ih =>
    by_cases hm : f.hash = hash ∧ f.key = key
    · rw [findEntry, if_pos hm] at h
      refine ⟨[], rest, ?_⟩
      rw [splitAtMatch, if_pos hm]
      simp only [Option.some.injEq] at h
      rw [h]
    · rw [findEntry, if_neg hm] at h
      rcases ih h with ⟨pre, suf, hs⟩
      exact ⟨f :: pre, suf, by rw [splitAtMatch, if_neg hm, hs]; rfl⟩

/-! ## List and bit arithmetic helpers -/

theorem getD_set_self {α : Type} (t : List α) (i : Nat) (x d : α) (h : i < t.length) :
    (t.set i x).getD i d = x := by
  simp [List.getD, List.getElem?_set_self, h]

theorem getD_set_ne {α : Type} (t : List α) (i j : Nat) (x d : α) (h : i ≠ j) :
    (t.set i x).getD j d = t.getD j d := by
  simp [List.getD, List.getElem?_set_ne h]

theorem getD_eq_getElem {α : Type} (t : List α) (i : Nat) (d : α) (h : i < t.length) :
    t.getD i d = t[i] := by
  simp [List.getD, List.getElem?_eq_getElem h]

theorem getD_mem_or_nil {α : Type} (t : List (List α)) (i : Nat) :
    t.getD i [] ∈ t ∨ t.getD i [] = [] := by
  by_cases h : i < t.length
  · left
    rw [getD_eq_getElem t i [] h]
    exact List.getElem_mem h
  · right
    simp [List.getD, List.getElem?_eq_none (Nat.le_of_not_lt h)]

theorem set_decomp {α : Type} (t : List α) (i : Nat) (x : α) (h : i < t.length) :
    t.set i x = t.take i ++ x :: t.drop (i + 1) := by
  rw [List.set_eq_take_append_cons_drop, if_pos h]

theorem self_decomp {α : Type} (t : List α) (i : Nat) (h : i < t.length) :
    t = t.take i ++ t[i] :: t.drop (i + 1) := by
  conv_lhs => rw [← List.take_append_drop i t, List.drop_eq_getElem_cons h]

theorem flatten_set_perm {α : Type} (t : List (List α)) (i : Nat) (x : List α)
    (h : i < t.length) :
    ((t.set i x).flatten ++ t.getD i []).Perm (x ++ t.flatten) := by
  rw [set_decomp t i x h, getD_eq_getElem t i [] h]
  conv_rhs => rw [self_decomp t i h]
  simp only [List.flatten_append, List.flatten_cons]
  rw [← Multiset.coe_eq_coe]
  simp only [← Multiset.coe_add]
  abel

theorem totalEntries_set (t : List (List (Entry K V))) (i : Nat) (x : List (Entry K V))
    (h : i < t.length) :
    totalEntries (t.set i x) + ((t.getD i []).length : Int) =
      totalEntries t + (x.length : Int) := by
  have hp := flatten_set_perm t i x h
  have hl := hp.length_eq
  simp only [List.length_append] at hl
  simp only [totalEntries]
  omega

theorem and_mask_lt {len : Nat} (hlen : 0 < len) (hash : Nat) : hash &&& (len - 1) < len :=
  Nat.lt_of_le_of_lt Nat.and_le_right (by omega)

theorem mod_double_or (x L : Nat) : x % (2 * L) = x % L ∨ x % (2 * L) = x % L + L := by
  rcases Nat.eq_zero_or_pos L with rfl | hL
  · simp
  have hmm : x % (2 * L) % L = x % L := Nat.mod_mod_of_dvd x ⟨2, by ring⟩
  have hlt : x % (2 * L) < 2 * L := Nat.mod_lt x (by omega)
  have hdec := Nat.div_add_mod (x % (2 * L)) L
  have hqlt : x % (2 * L) / L < 2 := by
    by_contra hq
    have : 2 * L ≤ L * (x % (2 * L) / L) := by
      calc 2 * L = L * 2 := by ring
      _ ≤ L * (x % (2 * L) / L) := Nat.mul_le_mul_left L (by omega)
    omega
  interval_cases hq : x % (2 * L) / L <;> omega

theorem and_double_mask (m x : Nat) :
    x &&& (2 ^ (m + 1) - 1) = x &&& (2 ^ m - 1) ∨
      x &&& (2 ^ (m + 1) - 1) = (x &&& (2 ^ m - 1)) + 2 ^ m := by
  rw [Nat.and_pow_two_sub_one_eq_mod, Nat.and_pow_two_sub_one_eq_mod, pow_succ, mul_comm]
  exact mod_double_or x (2 ^ m)

/-! ## `splitLastRun` lemmas -/

theorem splitLastRun_append (mask : Nat) (c : List (Entry K V)) :
    (splitLastRun mask c).1 ++ (splitLastRun mask c).2 = c := by
  induction c with
  | nil => rfl
  | cons e rest ih =>
    rcases rest with _ | ⟨f, rest1⟩
    · rfl
    · by_cases hc : (splitLastRun mask (f :: rest1)).1 = [] ∧
        e.hash &&& mask = f.hash &&& mask
      · simp [splitLastRun, hc]
      · simp only [splitLastRun, if_neg hc]
        simpa using ih

theorem splitLastRun_snd_ne_nil (mask : Nat) (c : List (Entry K V)) (hne : c ≠ []) :
    (splitLastRun mask c).2 ≠ [] := by
  induction c with
  | nil => exact absurd rfl hne
  | cons e rest ih =>
    rcases rest with _ | ⟨f, rest1⟩
    · simp [splitLastRun]
    · by_cases hc : (splitLastRun mask (f :: rest1)).1 = [] ∧
        e.hash &&& mask = f.hash &&& mask
      · simp [splitLastRun, hc]
      · simp only [splitLastRun, if_neg hc]
        exact ih (by simp)

theorem splitLastRun_run_const (mask : Nat) (c : List (Entry K V)) :
    ∀ r run, (splitLastRun mask c).2 = r :: run →
      ∀ e ∈ r :: run, e.hash &&& mask = r.hash &&& mask := by
  induction c with
  | nil => intro r run hs; simp [splitLastRun] at hs
  | cons e rest ih =>
    rcases rest with _ | ⟨f, rest1⟩
    · intro r run hs
      have hs2 : [e] = r :: run := hs
      rcases hs2 with ⟨⟩
      intro a ha
      have ha2 : a = e := by simpa using ha
      rw [ha2]
    · intro r run hs
      by_cases hc : (splitLastRun mask (f :: rest1)).1 = [] ∧
        e.hash &&& mask = f.hash &&& mask
      · simp only [splitLastRun, if_pos hc] at hs
        have hs2 : e :: f :: rest1 = r :: run := hs
        rcases hs2 with ⟨⟩
        have hrun : (splitLastRun mask (f :: rest1)).2 = f :: rest1 := by
          have happ := splitLastRun_append mask (f :: rest1)
          rw [hc.1] at happ
          simpa using happ
        intro a ha
        rcases List.mem_cons.1 ha with rfl | ha2
        · rfl
        · exact (ih f rest1 hrun a ha2).trans hc.2.symm
      · simp only [splitLastRun, if_neg hc] at hs
        exact ih r run hs

/-! ## `cloneInto` and `processBucket` lemmas -/

theorem getD_replicate_nil {α : Type} (n i : Nat) :
    (List.replicate n ([] : List α)).getD i [] = [] := by
  rcases Nat.lt_or_ge i n with h | h
  · rw [getD_eq_getElem _ _ _ (by simpa using h)]
    simp
  · have h2 : (List.replicate n ([] : List α)).length ≤ i := by simpa using h
    simp [List.getD, List.getElem?_eq_none h2]

theorem flatten_set_cons_perm {α : Type} (t : List (List α)) (i : Nat) (a : α)
    (h : i < t.length) :
    (t.set i (a :: t.getD i [])).flatten.Perm (a :: t.flatten) := by
  rw [set_decomp t i _ h, getD_eq_getElem t i [] h]
  conv_rhs => rw [self_decomp t i h]
  simp only [List.flatten_append, List.flatten_cons]
  rw [← Multiset.coe_eq_coe]
  simp only [← Multiset.coe_add, ← Multiset.cons_coe, ← Multiset.singleton_add]
  abel

theorem cloneInto_length (mask : Nat) (pre : List (Entry K V))
    (nt : List (List (Entry K V))) : (cloneInto mask pre nt).length = nt.length := by
  induction pre generalizing nt with
  | nil => rfl
  | cons p ps ih => rw [cloneInto, ih, List.length_set]

theorem cloneInto_getD (mask : Nat) (pre : List (Entry K V)) (nt : List (List (Entry K V)))
    (hlen : ∀ e ∈ pre, e.hash &&& mask < nt.length) (k : Nat) :
    (cloneInto mask pre nt).getD k [] =
      (pre.filter fun e => e.hash &&& mask = k).reverse ++ nt.getD k [] := by
  induction pre generalizing nt with
  | nil => simp [cloneInto]
  | cons p ps ih =>
    rw [cloneInto]
    have hp : p.hash &&& mask < nt.length := hlen p (List.mem_cons_self p ps)
    have hlen2 : ∀ e ∈ ps, e.hash &&& mask < (nt.set (p.hash &&& mask)
        (p :: nt.getD (p.hash &&& mask) [])).length := by
      intro e he
      rw [List.length_set]
      exact hlen e (List.mem_cons_of_mem _ he)
    rw [ih _ hlen2]
    by_cases hk : p.hash &&& mask = k
    · rw [hk, getD_set_self _ _ _ _ (hk ▸ hp), List.filter_cons_of_pos (by simp [hk])]
      simp
    · rw [getD_set_ne _ _ _ _ _ hk, List.filter_cons_of_neg (by simp [hk])]

theorem cloneInto_flatten_perm (mask : Nat) (pre : List (Entry K V))
    (nt : List (List (Entry K V)))
    (hlen : ∀ e ∈ pre, e.hash &&& mask < nt.length) :
    (cloneInto mask pre nt).flatten.Perm (pre ++ nt.flatten) := by
  induction pre generalizing nt with
  | nil => simp [cloneInto]
  | cons p ps ih =>
    rw [cloneInto]
    have hp : p.hash &&& mask < nt.length := hlen p (List.mem_cons_self p ps)
    have hlen2 : ∀ e ∈ ps, e.hash &&& mask < (nt.set (p.hash &&& mask)
        (p :: nt.getD (p.hash &&& mask) [])).length := by
      intro e he
      rw [List.length_set]
      exact hlen e (List.mem_cons_of_mem _ he)
    refine (ih _ hlen2).trans ?_
    refine (List.Perm.append_left ps (flatten_set_cons_perm nt _ p hp)).trans ?_
    exact List.perm_middle

theorem processBucket_length (mask : Nat) (chain : List (Entry K V))
    (nt : List (List (Entry K V))) : (processBucket mask chain nt).length = nt.length := by
  rcases chain with _ | ⟨e, rest⟩
  · rfl
  rcases rest with _ | ⟨f, rest1⟩
  · rw [processBucket, List.length_set]
  rw [processBucket]
  rcases hs : splitLastRun mask (e :: f :: rest1) with ⟨pre, run⟩
  rcases run with _ | ⟨r, run1⟩
  · rfl
  · rw [cloneInto_length, List.length_set]

theorem processBucket_getD (mask : Nat) (chain : List (Entry K V))
    (nt : List (List (Entry K V)))
    (hlen : ∀ e ∈ chain, e.hash &&& mask < nt.length)
    (hS : ∀ e ∈ chain, nt.getD (e.hash &&& mask) [] = []) (k : Nat) :
    ((processBucket mask chain nt).getD k []).Perm
      ((chain.filter fun e => e.hash &&& mask = k) ++ nt.getD k []) := by
  rcases chain with _ | ⟨e, rest⟩
  · simp [processBucket]
  rcases rest with _ | ⟨f, rest1⟩
  · rw [processBucket]
    have he : e.hash &&& mask < nt.length := hlen e (by simp)
    by_cases hk : e.hash &&& mask = k
    · rw [hk, getD_set_self _ _ _ _ (hk ▸ he), List.filter_cons_of_pos (by simp [hk])]
      rw [List.filter_nil, ← hk, hS e (by simp)]
      simp
    · rw [getD_set_ne _ _ _ _ _ hk, List.filter_cons_of_neg (by simp [hk])]
      simp
  -- general chain: share the last run, clone the prefix
  have hne : (splitLastRun mask (e :: f :: rest1)).2 ≠ [] :=
    splitLastRun_snd_ne_nil mask _ (by simp)
  rcases hs : splitLastRun mask (e :: f :: rest1) with ⟨pre, run⟩
  rcases run with _ | ⟨r, run1⟩
  · rw [hs] at hne; simp at hne
  have happ : pre ++ r :: run1 = e :: f :: rest1 := by
    have := splitLastRun_append mask (e :: f :: rest1)
    rw [hs] at this
    exact this
  have hconst : ∀ a ∈ r :: run1, a.hash &&& mask = r.hash &&& mask :=
    splitLastRun_run_const mask (e :: f :: rest1) r run1 (by rw [hs])
  have hmemchain : ∀ a ∈ r :: run1, a ∈ e :: f :: rest1 := by
    intro a ha
    rw [← happ]
    exact List.mem_append_right _ ha
  have hmempre : ∀ a ∈ pre, a ∈ e :: f :: rest1 := by
    intro a ha
    rw [← happ]
    exact List.mem_append_left _ ha
  have hr : r.hash &&& mask < nt.length := hlen r (hmemchain r (by simp))
  have heq : processBucket mask (e :: f :: rest1) nt =
      cloneInto mask pre (nt.set (r.hash &&& mask) (r :: run1)) := by
    rw [processBucket, hs]
  rw [heq]
  have hlen2 : ∀ a ∈ pre, a.hash &&& mask < (nt.set (r.hash &&& mask) (r :: run1)).length := by
    intro a ha
    rw [List.length_set]
    exact hlen a (hmempre a ha)
  rw [cloneInto_getD _ _ _ hlen2 k, ← happ, List.filter_append]
  by_cases hk : r.hash &&& mask = k
  · rw [hk, getD_set_self _ _ _ _ (hk ▸ hr)]
    have hfilterrun : (r :: run1).filter (fun a => decide (a.hash &&& mask = k)) = r :: run1 :=
      List.filter_eq_self.2 fun a ha => by simp [hconst a ha, hk]
    rw [hfilterrun, ← hk, hS r (hmemchain r (by simp)), List.append_nil]
    exact ((List.reverse_perm _).append_right _).trans (List.Perm.refl _)
  · rw [getD_set_ne _ _ _ _ _ hk]
    have hfilterrun : (r :: run1).filter (fun a => decide (a.hash &&& mask = k)) = [] :=
      List.filter_eq_nil_iff.2 fun a ha => by simp [hconst a ha, hk]
    rw [hfilterrun, List.append_nil]
    exact (List.reverse_perm _).append_right _

theorem processBucket_flatten_perm (mask : Nat) (chain : List (Entry K V))
    (nt : List (List (Entry K V)))
    (hlen : ∀ e ∈ chain, e.hash &&& mask < nt.length)
    (hS : ∀ e ∈ chain, nt.getD (e.hash &&& mask) [] = []) :
    (processBucket mask chain nt).flatten.Perm (chain ++ nt.flatten) := by
  rcases chain with _ | ⟨e, rest⟩
  · simp [processBucket]
  rcases rest with _ | ⟨f, rest1⟩
  · rw [processBucket]
    have he : e.hash &&& mask < nt.length := hlen e (by simp)
    have := flatten_set_perm nt (e.hash &&& mask) [e] he
    rw [hS e (by simp), List.append_nil] at this
    exact this
  have hne : (splitLastRun mask (e :: f :: rest1)).2 ≠ [] :=
    splitLastRun_snd_ne_nil mask _ (by simp)
  rcases hs : splitLastRun mask (e :: f :: rest1) with ⟨pre, run⟩
  rcases run with _ | ⟨r, run1⟩
  · rw [hs] at hne; simp at hne
  have happ : pre ++ r :: run1 = e :: f :: rest1 := by
    have := splitLastRun_append mask (e :: f :: rest1)
    rw [hs] at this
    exact this
  have hmemchain : ∀ a ∈ r :: run1, a ∈ e :: f :: rest1 := by
    intro a ha
    rw [← happ]
    exact List.mem_append_right _ ha
  have hmempre : ∀ a ∈ pre, a ∈ e :: f :: rest1 := by
    intro a ha
    rw [← happ]
    exact List.mem_append_left _ ha
  have hr : r.hash &&& mask < nt.length := hlen r (hmemchain r (by simp))
  have heq : processBucket mask (e :: f :: rest1) nt =
      cloneInto mask pre (nt.set (r.hash &&& mask) (r :: run1)) := by
    rw [processBucket, hs]
  rw [heq]
  have hlen2 : ∀ a ∈ pre, a.hash &&& mask < (nt.set (r.hash &&& mask) (r :: run1)).length := by
    intro a ha
    rw [List.length_set]
    exact hlen a (hmempre a ha)
  refine (cloneInto_flatten_perm mask pre _ hlen2).trans ?_
  have hset := flatten_set_perm nt (r.hash &&& mask) (r :: run1) hr
  rw [hS r (hmemchain r (by simp)), List.append_nil] at hset
  refine (List.Perm.append_left pre hset).trans ?_
  rw [← List.append_assoc, happ]

/-! ## The rehash redistribution, bucket by bucket -/

theorem perm_shuffle {α : Type} (a b c : List α) : (a ++ (b ++ c)).Perm ((b ++ a) ++ c) := by
  rw [← Multiset.coe_eq_coe]
  simp only [← Multiset.coe_add]
  abel

/-- Accounting for the bucket loop of `rehash` over any set of distinct source
buckets whose chains target still-empty destination slots: lengths are
preserved, each destination slot ends up a permutation of the entries hashing
to it, and the flattened contents are preserved. -/
theorem fold_process (t : List (List (Entry K V))) (L : Nat) (hL : L = t.length)
    (idxs : List Nat) (nt : List (List (Entry K V)))
    (hnt : nt.length = 2 * L)
    (hin : ∀ i ∈ idxs, i < L)
    (hnodup : idxs.Nodup)
    (htgt : ∀ i ∈ idxs, ∀ e ∈ t.getD i [],
      e.hash &&& (2 * L - 1) = i ∨ e.hash &&& (2 * L - 1) = i + L)
    (hempty : ∀ i ∈ idxs, nt.getD i [] = [] ∧ nt.getD (i + L) [] = []) :
    (idxs.foldl (fun acc i => processBucket (2 * L - 1) (t.getD i []) acc) nt).length
        = nt.length ∧
      (∀ k,
        ((idxs.foldl (fun acc i => processBucket (2 * L - 1) (t.getD i []) acc) nt).getD k
            []).Perm
          ((idxs.flatMap fun i =>
              (t.getD i []).filter fun e => e.hash &&& (2 * L - 1) = k) ++ nt.getD k [])) ∧
      ((idxs.foldl (fun acc i => processBucket (2 * L - 1) (t.getD i []) acc) nt).flatten.Perm
        ((idxs.flatMap fun i => t.getD i []) ++ nt.flatten)) := by
  induction idxs generalizing nt with
  | nil => exact ⟨rfl, fun k => by simp, by simp⟩
  | cons i rest ih =>
    have hiL : i < L := hin i (List.mem_cons_self i rest)
    have hchainlen : ∀ e ∈ t.getD i [], e.hash &&& (2 * L - 1) < nt.length := by
      intro e he
      rcases htgt i (List.mem_cons_self i rest) e he with h | h <;> rw [h, hnt] <;> omega
    have hchainS : ∀ e ∈ t.getD i [], nt.getD (e.hash &&& (2 * L - 1)) [] = [] := by
      intro e he
      rcases htgt i (List.mem_cons_self i rest) e he with h | h <;> rw [h]
      · exact (hempty i (List.mem_cons_self i rest)).1
      · exact (hempty i (List.mem_cons_self i rest)).2
    have hnt1len : (processBucket (2 * L - 1) (t.getD i []) nt).length = nt.length :=
      processBucket_length _ _ _
    have hgetD1 := processBucket_getD (2 * L - 1) (t.getD i []) nt hchainlen hchainS
    have hflat1 := processBucket_flatten_perm (2 * L - 1) (t.getD i []) nt hchainlen hchainS
    have hinotmem : i ∉ rest := (List.nodup_cons.1 hnodup).1
    have hempty1 : ∀ j ∈ rest,
        (processBucket (2 * L - 1) (t.getD i []) nt).getD j [] = [] ∧
        (processBucket (2 * L - 1) (t.getD i []) nt).getD (j + L) [] = [] := by
      intro j hj
      have hjL : j < L := hin j (List.mem_cons_of_mem _ hj)
      have hji : j ≠ i := fun h => hinotmem (h ▸ hj)
      constructor
      · have hp := hgetD1 j
        have hfil : (t.getD i []).filter (fun e => decide (e.hash &&& (2 * L - 1) = j)) = [] := by
          refine List.filter_eq_nil_iff.2 fun e he => ?_
          rcases htgt i (List.mem_cons_self i rest) e he with h | h <;> simp [h] <;> omega
        rw [hfil, (hempty j (List.mem_cons_of_mem _ hj)).1] at hp
        exact List.perm_nil.1 hp
      · have hp := hgetD1 (j + L)
        have hfil : (t.getD i []).filter
            (fun e => decide (e.hash &&& (2 * L - 1) = j + L)) = [] := by
          refine List.filter_eq_nil_iff.2 fun e he => ?_
          rcases htgt i (List.mem_cons_self i rest) e he with h | h <;> simp [h] <;> omega
        rw [hfil, (hempty j (List.mem_cons_of_mem _ hj)).2] at hp
        exact List.perm_nil.1 hp
    have ihr := ih (processBucket (2 * L - 1) (t.getD i []) nt) (hnt1len.trans hnt)
      (fun j hj => hin j (List.mem_cons_of_mem _ hj))
      (List.nodup_cons.1 hnodup).2
      (fun j hj => htgt j (List.mem_cons_of_mem _ hj))
      hempty1
    rw [List.foldl_cons]
    refine ⟨ihr.1.trans hnt1len, fun k => ?_, ?_⟩
    · refine (ihr.2.1 k).trans ?_
      refine (List.Perm.append_left _ (hgetD1 k)).trans ?_
      rw [List.flatMap_cons]
      exact perm_shuffle _ _ _
    · refine ihr.2.2.trans ?_
      refine (List.Perm.append_left _ hflat1).trans ?_
      rw [List.flatMap_cons]
      exact perm_shuffle _ _ _

theorem mem_getD_lt {α : Type} (t : List (List α)) (i : Nat) (e : α)
    (he : e ∈ t.getD i []) : i < t.length := by
  by_contra h
  simp [List.getD, List.getElem?_eq_none (Nat.le_of_not_lt h)] at he

theorem flatten_eq_flatMap_range {α : Type} (u : List (List α)) :
    u.flatten = (List.range u.length).flatMap fun i => u.getD i [] := by
  induction u with
  | nil => simp
  | cons x u ih =>
    rw [List.flatten_cons, List.length_cons, List.range_succ_eq_map, List.flatMap_cons,
      List.getD_cons_zero, List.flatMap_map]
    simp only [Nat.succ_eq_add_one, List.getD_cons_succ, Function.comp]
    rw [← ih]

theorem flatMap_eq_single {β : Type} (idxs : List Nat) (f : Nat → List β) (i0 : Nat)
    (hnd : idxs.Nodup) (hf : ∀ i ∈ idxs, i ≠ i0 → f i = []) :
    idxs.flatMap f = if i0 ∈ idxs then f i0 else [] := by
  induction idxs with
  | nil => simp
  | cons i rest ih =>
    rw [List.flatMap_cons]
    by_cases hii : i = i0
    · subst hii
      have hrest : rest.flatMap f = [] := List.flatMap_eq_nil_iff.2 fun j hj =>
        hf j (List.mem_cons_of_mem _ hj) fun h => (List.nodup_cons.1 hnd).1 (h ▸ hj)
      rw [hrest, List.append_nil, if_pos (List.mem_cons_self i rest)]
    · rw [hf i (List.mem_cons_self i rest) hii, List.nil_append,
        ih (List.nodup_cons.1 hnd).2 fun j hj hji => hf j (List.mem_cons_of_mem _ hj) hji]
      by_cases h0 : i0 ∈ rest
      · rw [if_pos h0, if_pos (List.mem_cons_of_mem _ h0)]
      · have hnotin : i0 ∉ i :: rest := by
          simp only [List.mem_cons]
          rintro (h | h)
          · exact hii h.symm
          · exact h0 h
        rw [if_neg h0, if_neg hnotin]

/-- The three master facts about the redistribution `rehashTable`: the table
doubles, every new slot holds a permutation of the old entries whose hash
selects it, and the multiset of entries is unchanged. -/
theorem rehashTable_master (t : List (List (Entry K V))) (htwf : TableWF t) :
    (rehashTable t).length = 2 * t.length ∧
      (∀ k, ((rehashTable t).getD k []).Perm
        ((List.range t.length).flatMap fun i =>
          (t.getD i []).filter fun e => e.hash &&& (2 * t.length - 1) = k)) ∧
      (rehashTable t).flatten.Perm t.flatten := by
  obtain ⟨m, hm⟩ := htwf.pow
  have h2L : 2 * t.length = 2 ^ (m + 1) := by rw [hm, pow_succ]; ring
  have htgt : ∀ i ∈ List.range t.length, ∀ e ∈ t.getD i [],
      e.hash &&& (2 * t.length - 1) = i ∨ e.hash &&& (2 * t.length - 1) = i + t.length := by
    intro i _ e he
    have hplaced := htwf.placed i e he
    have hd := and_double_mask m e.hash
    rw [← hm] at hd
    rw [h2L]
    rcases hd with h | h
    · exact Or.inl (by rw [h, hplaced])
    · exact Or.inr (by rw [h, hplaced])
  have hrepl : ∀ i ∈ List.range t.length,
      (List.replicate (2 * t.length) ([] : List (Entry K V))).getD i [] = [] ∧
      (List.replicate (2 * t.length) ([] : List (Entry K V))).getD (i + t.length) [] = [] :=
    fun i _ => ⟨getD_replicate_nil _ _, getD_replicate_nil _ _⟩
  have hmain := fold_process t t.length rfl (List.range t.length)
    (List.replicate (2 * t.length) []) (List.length_replicate ..)
    (fun i hi => List.mem_range.1 hi) (List.nodup_range _) htgt hrepl
  have hreplflat : (List.replicate (2 * t.length) ([] : List (Entry K V))).flatten = [] :=
    List.flatten_eq_nil_iff.2 fun x hx => List.eq_of_mem_replicate hx
  refine ⟨?_, fun k => ?_, ?_⟩
  · have h1 : (rehashTable t).length =
        (List.replicate (2 * t.length) ([] : List (Entry K V))).length := hmain.1
    rw [h1, List.length_replicate]
  · have := hmain.2.1 k
    rw [getD_replicate_nil, List.append_nil] at this
    exact this
  · have := hmain.2.2
    rw [hreplflat, List.append_nil, ← flatten_eq_flatMap_range] at this
    exact this

/-- Every old entry is reachable in the rehashed table at its new index. -/
theorem mem_rehashTable (t : List (List (Entry K V))) (htwf : TableWF t) (i : Nat)
    (e : Entry K V) (he : e ∈ t.getD i []) :
    e ∈ (rehashTable t).getD (e.hash &&& (2 * t.length - 1)) [] := by
  have hlt : i < t.length := mem_getD_lt t i e he
  have hperm := (rehashTable_master t htwf).2.1 (e.hash &&& (2 * t.length - 1))
  rw [hperm.mem_iff]
  exact List.mem_flatMap.2 ⟨i, List.mem_range.2 hlt, List.mem_filter.2 ⟨he, by simp⟩⟩

/-- The rehashed table is well-formed again. -/
theorem TableWF_rehashTable (t : List (List (Entry K V))) (htwf : TableWF t) :
    TableWF (rehashTable t) := by
  obtain ⟨m, hm⟩ := htwf.pow
  have hlen := (rehashTable_master t htwf).1
  refine ⟨⟨m + 1, by rw [hlen, hm, pow_succ]; ring⟩, ?_, ?_⟩
  · intro k e he
    have hperm := (rehashTable_master t htwf).2.1 k
    rw [hperm.mem_iff] at he
    obtain ⟨i, _, hef⟩ := List.mem_flatMap.1 he
    have := (List.mem_filter.1 hef).2
    rw [hlen]
    simpa using this
  · intro k
    have hperm := (rehashTable_master t htwf).2.1 k
    have hsym : Symmetric fun a b : Entry K V => ¬(a.hash = b.hash ∧ a.key = b.key) :=
      fun a b h hc => h ⟨hc.1.symm, hc.2.symm⟩
    rw [chainUnique, hperm.pairwise_iff fun hab => hsym hab]
    have hsingle : ((List.range t.length).flatMap fun i =>
        (t.getD i []).filter fun e => e.hash &&& (2 * t.length - 1) = k) =
        if (if k < t.length then k else k - t.length) ∈ List.range t.length then
          (t.getD (if k < t.length then k else k - t.length) []).filter
            fun e => e.hash &&& (2 * t.length - 1) = k
        else [] := by
      refine flatMap_eq_single _ _ _ (List.nodup_range _) ?_
      intro i hi hne
      refine List.filter_eq_nil_iff.2 fun e he => ?_
      have hiL := List.mem_range.1 hi
      have hplaced := htwf.placed i e he
      have hd := and_double_mask m e.hash
      rw [← hm] at hd
      have h2L2 : 2 * t.length - 1 = 2 ^ (m + 1) - 1 := by rw [pow_succ, ← hm]; omega
      rw [h2L2]
      simp only [decide_eq_true_eq]
      intro hk
      rw [hplaced] at hd
      rcases hd with h | h <;> rw [h] at hk
      · subst hk
        exact hne (by rw [if_pos hiL])
      · subst hk
        have hnlt : ¬(i + t.length < t.length) := by omega
        exact hne (by rw [if_neg hnlt, Nat.add_sub_cancel])
    rw [hsingle]
    set i0 := if k < t.length then k else k - t.length with hi0
    split
    · exact (htwf.uniq i0).sublist (List.filter_sublist _)
    · exact List.Pairwise.nil

/-- Rehashing preserves the number of live entries. -/
theorem totalEntries_rehashTable (t : List (List (Entry K V))) (htwf : TableWF t) :
    totalEntries (rehashTable t) = totalEntries t := by
  have := (rehashTable_master t htwf).2.2.length_eq
  simp only [totalEntries]
  omega

/-! ## Segment-level preservation lemmas -/

theorem mem_flatten_set {α : Type} (t : List (List α)) (i : Nat) (x : List α)
    (h : i < t.length) (e : α) (he : e ∈ (t.set i x).flatten) : e ∈ x ∨ e ∈ t.flatten := by
  have hp := flatten_set_perm t i x h
  have : e ∈ x ++ t.flatten := hp.mem_iff.1 (List.mem_append_left _ he)
  simpa using this

theorem tableLen_pos {t : List (List (Entry K V))} (htwf : TableWF t) : 0 < t.length := by
  obtain ⟨m, hm⟩ := htwf.pow
  rw [hm]
  exact Nat.pos_pow_of_pos m (by omega)

theorem totalEntries_nonneg (t : List (List (Entry K V))) : 0 ≤ totalEntries t :=
  Int.natCast_nonneg _

theorem chain_mem_totalEntries {t : List (List (Entry K V))} {i : Nat} {e : Entry K V}
    (he : e ∈ t.getD i []) : 0 < totalEntries t := by
  rcases getD_mem_or_nil t i with h | h
  · have : e ∈ t.flatten := List.mem_flatten.2 ⟨_, h, he⟩
    have : t.flatten ≠ [] := fun hf => by simp [hf] at this
    have : 0 < t.flatten.length := List.length_pos.2 this
    simp only [totalEntries]
    omega
  · rw [h] at he
    simp at he

theorem SegWF_rehashUnguarded {s : Segment K V} (h : SegWF s) : SegWF s.rehashUnguarded := by
  rw [Segment.rehashUnguarded]
  split
  · exact h
  · exact ⟨TableWF_rehashTable _ h.twf, by
      simp only [h.cnt, totalEntries_rehashTable _ h.twf]⟩

theorem SegWF_rehash {s : Segment K V} (h : SegWF s) : SegWF s.rehash := by
  rw [Segment.rehash]
  split
  · exact SegWF_rehashUnguarded h
  · exact h

theorem rehashUnguarded_table_flatten_perm {s : Segment K V} (h : SegWF s) :
    s.rehashUnguarded.table.flatten.Perm s.table.flatten := by
  rw [Segment.rehashUnguarded]
  split
  · exact List.Perm.refl _
  · exact (rehashTable_master _ h.twf).2.2

theorem rehash_table_flatten_perm {s : Segment K V} (h : SegWF s) :
    s.rehash.table.flatten.Perm s.table.flatten := by
  rw [Segment.rehash]
  split
  · exact rehashUnguarded_table_flatten_perm h
  · exact List.Perm.refl _

theorem rehash_fields (s : Segment K V) :
    s.rehash.count = s.count ∧ s.rehash.loadFactor = s.loadFactor := by
  rw [Segment.rehash, Segment.rehashUnguarded]
  split <;> [skip; exact ⟨rfl, rfl⟩]
  split <;> exact ⟨rfl, rfl⟩

/-- After the `put` body with `onlyIfAbsent = false`, `get` at the same hash
and key returns the stored value. -/
theorem putCore_get {s1 : Segment K V} (h1 : SegWF s1) (key : K) (hash : Nat) (v : V) :
    (s1.putCore key hash v false).2.1.get key hash = some v := by
  have hpos := tableLen_pos h1.twf
  have hidx : hash &&& (s1.table.length - 1) < s1.table.length := and_mask_lt hpos hash
  simp only [Segment.putCore]
  split
  case _ e hfe =>
    simp only [Bool.false_eq_true, if_false, Segment.get]
    have hcnt : s1.count ≠ 0 := by
      have := chain_mem_totalEntries (findEntry_eq_some hfe).1
      rw [h1.cnt]
      omega
    rw [if_pos hcnt, List.length_set, getD_set_self _ _ _ _ hidx, findEntry_storeChain]
    rcases hfe2 : findEntry hash key (s1.table.getD (hash &&& (s1.table.length - 1)) []) with
        _ | e2
    · rw [hfe2] at hfe; cases hfe
    · rfl
  case _ hfe =>
    simp only [Segment.get]
    have hcnt : s1.count + 1 ≠ 0 := by
      have h0 := totalEntries_nonneg s1.table
      rw [h1.cnt]
      omega
    rw [if_pos hcnt, List.length_set, getD_set_self _ _ _ _ hidx, findEntry_cons_self]

/-- The `put` body preserves segment well-formedness. -/
theorem SegWF_putCore {s1 : Segment K V} (h1 : SegWF s1) (key : K) (hash : Nat) (v : V)
    (only : Bool) : SegWF (s1.putCore key hash v only).2.1 := by
  have hpos := tableLen_pos h1.twf
  have hidx : hash &&& (s1.table.length - 1) < s1.table.length := and_mask_lt hpos hash
  simp only [Segment.putCore]
  split
  case _ e hfe =>
    split
    · exact h1
    refine ⟨⟨?_, ?_, ?_⟩, ?_⟩
    · obtain ⟨m, hm⟩ := h1.twf.pow
      exact ⟨m, by rw [List.length_set, hm]⟩
    · intro i a ha
      rw [List.length_set]
      by_cases hik : hash &&& (s1.table.length - 1) = i
      · rw [← hik] at ha
        rw [getD_set_self _ _ _ _ hidx] at ha
        rcases mem_storeChain ha with h2 | ⟨f, hf, h3, h4, h5⟩
        · exact h1.twf.placed i a (by rw [← hik]; exact h2)
        · subst h5
          simpa using h1.twf.placed i f (by rw [← hik]; exact hf)
      · rw [getD_set_ne _ _ _ _ _ hik] at ha
        exact h1.twf.placed i a ha
    · intro i
      by_cases hik : hash &&& (s1.table.length - 1) = i
      · rw [← hik, getD_set_self _ _ _ _ hidx]
        exact chainUnique_storeChain (hik ▸ h1.twf.uniq i)
      · rw [getD_set_ne _ _ _ _ _ hik]
        exact h1.twf.uniq i
    · have := totalEntries_set s1.table (hash &&& (s1.table.length - 1))
        (storeChain hash key v (s1.table.getD (hash &&& (s1.table.length - 1)) [])) hidx
      rw [storeChain_length] at this
      simp only
      rw [h1.cnt]
      omega
  case _ hfe =>
    have hnomatch := findEntry_eq_none_iff.1 hfe
    refine ⟨⟨?_, ?_, ?_⟩, ?_⟩
    · obtain ⟨m, hm⟩ := h1.twf.pow
      exact ⟨m, by rw [List.length_set, hm]⟩
    · intro i a ha
      rw [List.length_set]
      by_cases hik : hash &&& (s1.table.length - 1) = i
      · rw [← hik] at ha
        rw [getD_set_self _ _ _ _ hidx] at ha
        rcases List.mem_cons.1 ha with rfl | h2
        · exact hik
        · exact h1.twf.placed i a (by rw [← hik]; exact h2)
      · rw [getD_set_ne _ _ _ _ _ hik] at ha
        exact h1.twf.placed i a ha
    · intro i
      by_cases hik : hash &&& (s1.table.length - 1) = i
      · rw [← hik, getD_set_self _ _ _ _ hidx]
        rw [chainUnique, List.pairwise_cons]
        refine ⟨fun b hb hc => hnomatch b hb ⟨hc.1.symm, hc.2.symm⟩, hik ▸ h1.twf.uniq i⟩
      · rw [getD_set_ne _ _ _ _ _ hik]
        exact h1.twf.uniq i
    · have := totalEntries_set s1.table (hash &&& (s1.table.length - 1))
        ((⟨key, hash, v⟩ : Entry K V) :: s1.table.getD (hash &&& (s1.table.length - 1)) [])
        hidx
      rw [List.length_cons] at this
      simp only
      rw [h1.cnt]
      push_cast at this ⊢
      omega

theorem SegWF_put {s : Segment K V} (h : SegWF s) (key : K) (hash : Nat) (v : V)
    (only : Bool) : SegWF (s.put key hash v only).2.1 := by
  rw [Segment.put]
  split
  · exact SegWF_putCore (SegWF_rehash h) key hash v only
  · exact SegWF_putCore h key hash v only

theorem seg_put_get {s : Segment K V} (h : SegWF s) (key : K) (hash : Nat) (v : V) :
    (s.put key hash v false).2.1.get key hash = some v := by
  rw [Segment.put]
  split
  · exact putCore_get (SegWF_rehash h) key hash v
  · exact putCore_get h key hash v

theorem flatten_replicate_nil {α : Type} (n : Nat) :
    (List.replicate n ([] : List α)).flatten = [] :=
  List.flatten_eq_nil_iff.2 fun x hx => List.eq_of_mem_replicate hx

theorem sublist_append_cons {α : Type} (pre suf : List α) (e : α) :
    List.Sublist (pre ++ suf) (pre ++ e :: suf) :=
  List.Sublist.append_left (List.sublist_cons_self e suf) pre

/-- Well-formedness is preserved when the first matching entry's value is
swapped in place (the common step of `put`, `replace` and
`replaceWithOld`). -/
theorem SegWF_setStore {s1 : Segment K V} (h1 : SegWF s1) (key : K) (hash : Nat) (v : V) :
    SegWF { s1 with
      table := s1.table.set (hash &&& (s1.table.length - 1))
        (storeChain hash key v (s1.table.getD (hash &&& (s1.table.length - 1)) [])) } := by
  have hpos := tableLen_pos h1.twf
  have hidx : hash &&& (s1.table.length - 1) < s1.table.length := and_mask_lt hpos hash
  refine ⟨⟨?_, ?_, ?_⟩, ?_⟩
  · obtain ⟨m, hm⟩ := h1.twf.pow
    exact ⟨m, by rw [List.length_set, hm]⟩
  · intro i a ha
    rw [List.length_set]
    by_cases hik : hash &&& (s1.table.length - 1) = i
    · rw [← hik, getD_set_self _ _ _ _ hidx] at ha
      rcases mem_storeChain ha with h2 | ⟨f, hf, h3, h4, h5⟩
      · exact h1.twf.placed i a (by rw [← hik]; exact h2)
      · subst h5
        simpa using h1.twf.placed i f (by rw [← hik]; exact hf)
    · rw [getD_set_ne _ _ _ _ _ hik] at ha
      exact h1.twf.placed i a ha
  · intro i
    by_cases hik : hash &&& (s1.table.length - 1) = i
    · rw [← hik, getD_set_self _ _ _ _ hidx]
      exact chainUnique_storeChain (hik ▸ h1.twf.uniq i)
    · rw [getD_set_ne _ _ _ _ _ hik]
      exact h1.twf.uniq i
  · have := totalEntries_set s1.table (hash &&& (s1.table.length - 1))
      (storeChain hash key v (s1.table.getD (hash &&& (s1.table.length - 1)) [])) hidx
    rw [storeChain_length] at this
    simp only
    rw [h1.cnt]
    omega

theorem SegWF_remove {s : Segment K V} (h : SegWF s) (key : K) (hash : Nat)
    (value : Option V) : SegWF (s.remove key hash value).2.1 := by
  have hpos := tableLen_pos h.twf
  have hidx : hash &&& (s.table.length - 1) < s.table.length := and_mask_lt hpos hash
  simp only [Segment.remove]
  split
  case _ pms hsp =>
    split
    case _ hval =>
      obtain ⟨pre, e, suf⟩ := pms
      obtain ⟨hchain, hprenm, hehash, hekey⟩ := splitAtMatch_spec hsp
      refine ⟨⟨?_, ?_, ?_⟩, ?_⟩
      · obtain ⟨m, hm⟩ := h.twf.pow
        exact ⟨m, by rw [List.length_set, hm]⟩
      · intro i a ha
        rw [List.length_set]
        by_cases hik : hash &&& (s.table.length - 1) = i
        · rw [← hik, getD_set_self _ _ _ _ hidx] at ha
          have hmem : a ∈ s.table.getD (hash &&& (s.table.length - 1)) [] := by
            rw [hchain]
            rcases List.mem_append.1 ha with h2 | h2
            · exact List.mem_append_left _ (List.mem_reverse.1 h2)
            · exact List.mem_append_right _ (List.mem_cons_of_mem _ h2)
          exact h.twf.placed i a (by rw [← hik]; exact hmem)
        · rw [getD_set_ne _ _ _ _ _ hik] at ha
          exact h.twf.placed i a ha
      · intro i
        by_cases hik : hash &&& (s.table.length - 1) = i
        · rw [← hik, getD_set_self _ _ _ _ hidx]
          have hpair : chainUnique (s.table.getD (hash &&& (s.table.length - 1)) []) :=
            hik ▸ h.twf.uniq i
          rw [hchain] at hpair
          have hpair2 : chainUnique (pre ++ suf) :=
            List.Pairwise.sublist (sublist_append_cons pre suf e) hpair
          have hsym : Symmetric fun a b : Entry K V =>
              ¬(a.hash = b.hash ∧ a.key = b.key) :=
            fun a b h2 hc => h2 ⟨hc.1.symm, hc.2.symm⟩
          have hperm : (pre.reverse ++ suf).Perm (pre ++ suf) :=
            (List.reverse_perm pre).append_right suf
          exact (hperm.pairwise_iff fun hab => hsym hab).2 hpair2
        · rw [getD_set_ne _ _ _ _ _ hik]
          exact h.twf.uniq i
      · have := totalEntries_set s.table (hash &&& (s.table.length - 1))
          (pre.reverse ++ suf) hidx
        rw [hchain] at this
        simp only [List.length_append, List.length_reverse, List.length_cons] at this
        simp only
        rw [h.cnt]
        push_cast at this ⊢
        omega
    · exact h
  · exact h

/-- After a key-only `remove`, `get` at the same hash and key misses: the
matching entry is gone and chain uniqueness rules out a second one. -/
theorem seg_remove_get {s : Segment K V} (h : SegWF s) (key : K) (hash : Nat) :
    (s.remove key hash none).2.1.get key hash = none := by
  have hpos := tableLen_pos h.twf
  have hidx : hash &&& (s.table.length - 1) < s.table.length := and_mask_lt hpos hash
  simp only [Segment.remove]
  split
  case _ pms hsp =>
    rw [if_pos (Or.inl True.intro)]
    obtain ⟨pre, e, suf⟩ := pms
    obtain ⟨hchain, hprenm, hehash, hekey⟩ := splitAtMatch_spec hsp
    have hpair : chainUnique (s.table.getD (hash &&& (s.table.length - 1)) []) :=
      h.twf.uniq _
    rw [hchain] at hpair
    have hsufnm : ∀ a ∈ suf, ¬(a.hash = hash ∧ a.key = key) := by
      intro a ha hc
      have h2 := (List.pairwise_append.1 hpair).2.1
      rw [List.pairwise_cons] at h2
      exact h2.1 a ha ⟨hehash.trans hc.1.symm, hekey.trans hc.2.symm⟩
    have hnone : findEntry hash key (pre.reverse ++ suf) = none := by
      rw [findEntry_eq_none_iff]
      intro a ha
      rcases List.mem_append.1 ha with h2 | h2
      · exact hprenm a (List.mem_reverse.1 h2)
      · exact hsufnm a h2
    simp only [Segment.get]
    split
    · rw [List.length_set, getD_set_self _ _ _ _ hidx, hnone]
    · rfl
  case _ hsp =>
    have hnone : findEntry hash key (s.table.getD (hash &&& (s.table.length - 1)) []) =
        none := by
      rw [findEntry_eq_none_iff]
      exact splitAtMatch_eq_none_iff.1 hsp
    simp only [Segment.get]
    split
    · rw [hnone]
    · rfl

theorem SegWF_replace {s : Segment K V} (h : SegWF s) (key : K) (hash : Nat) (v : V) :
    SegWF (s.replace key hash v).2 := by
  simp only [Segment.replace]
  split
  · exact SegWF_setStore h key hash v
  · exact h

theorem SegWF_replaceWithOld {s : Segment K V} (h : SegWF s) (key : K) (hash : Nat)
    (ov nv : V) : SegWF (s.replaceWithOld key hash ov nv).2 := by
  simp only [Segment.replaceWithOld]
  split
  · split
    · exact SegWF_setStore h key hash nv
    · exact h
  · exact h

theorem SegWF_clear {s : Segment K V} (h : SegWF s) : SegWF (s.clear).1 := by
  simp only [Segment.clear]
  split
  · refine ⟨⟨?_, ?_, ?_⟩, ?_⟩
    · obtain ⟨m, hm⟩ := h.twf.pow
      exact ⟨m, by rw [List.length_replicate, hm]⟩
    · intro i a ha
      rw [getD_replicate_nil] at ha
      simp at ha
    · intro i
      rw [getD_replicate_nil]
      exact List.Pairwise.nil
    · simp only [totalEntries, flatten_replicate_nil]
      rfl
  · exact h

/-! ## Hash-consistency preservation -/

theorem hashOK_iff (hsh : K → Nat) (t : List (List (Entry K V))) :
    hashOK hsh t ↔ ∀ e ∈ t.flatten, e.hash = hsh e.key := by
  constructor
  · intro h e he
    obtain ⟨c, hc, hec⟩ := List.mem_flatten.1 he
    exact h c hc e hec
  · intro h c hc e hec
    exact h e (List.mem_flatten.2 ⟨c, hc, hec⟩)

theorem mem_getD_flatten {α : Type} (t : List (List α)) (i : Nat) (a : α)
    (ha : a ∈ t.getD i []) : a ∈ t.flatten := by
  rcases getD_mem_or_nil t i with h | h
  · exact List.mem_flatten.2 ⟨_, h, ha⟩
  · rw [h] at ha
    simp at ha

theorem hashOK_setStore {hsh : K → Nat} {s1 : Segment K V} (h1 : SegWF s1)
    (hOK : hashOK hsh s1.table) (key : K) (hash : Nat) (v : V) :
    hashOK hsh (s1.table.set (hash &&& (s1.table.length - 1))
      (storeChain hash key v (s1.table.getD (hash &&& (s1.table.length - 1)) []))) := by
  have hidx := and_mask_lt (tableLen_pos h1.twf) hash
  rw [hashOK_iff]
  intro a ha
  rcases mem_flatten_set _ _ _ hidx a ha with h2 | h2
  · rcases mem_storeChain h2 with h3 | ⟨f, hf, h3, h4, h5⟩
    · exact (hashOK_iff hsh s1.table).1 hOK a (mem_getD_flatten _ _ _ h3)
    · subst h5
      simpa using (hashOK_iff hsh s1.table).1 hOK f (mem_getD_flatten _ _ _ hf)
  · exact (hashOK_iff hsh s1.table).1 hOK a h2

theorem hashOK_putCore {hsh : K → Nat} {s1 : Segment K V} (h1 : SegWF s1)
    (hOK : hashOK hsh s1.table) (key : K) (v : V) (only : Bool) :
    hashOK hsh (s1.putCore key (hsh key) v only).2.1.table := by
  have hidx := and_mask_lt (tableLen_pos h1.twf) (hsh key)
  simp only [Segment.putCore]
  split
  case _ e hfe =>
    split
    · exact hOK
    · exact hashOK_setStore h1 hOK key (hsh key) v
  case _ hfe =>
    rw [hashOK_iff]
    intro a ha
    rcases mem_flatten_set _ _ _ hidx a ha with h2 | h2
    · rcases List.mem_cons.1 h2 with rfl | h3
      · rfl
      · exact (hashOK_iff hsh s1.table).1 hOK a (mem_getD_flatten _ _ _ h3)
    · exact (hashOK_iff hsh s1.table).1 hOK a h2

theorem hashOK_rehash {hsh : K → Nat} {s : Segment K V} (h : SegWF s)
    (hOK : hashOK hsh s.table) : hashOK hsh s.rehash.table := by
  rw [hashOK_iff]
  intro a ha
  exact (hashOK_iff hsh s.table).1 hOK a ((rehash_table_flatten_perm h).mem_iff.1 ha)

theorem hashOK_put {hsh : K → Nat} {s : Segment K V} (h : SegWF s)
    (hOK : hashOK hsh s.table) (key : K) (v : V) (only : Bool) :
    hashOK hsh (s.put key (hsh key) v only).2.1.table := by
  rw [Segment.put]
  split
  · exact hashOK_putCore (SegWF_rehash h) (hashOK_rehash h hOK) key v only
  · exact hashOK_putCore h hOK key v only

theorem hashOK_remove {hsh : K → Nat} {s : Segment K V} (h : SegWF s)
    (hOK : hashOK hsh s.table) (key : K) (hash : Nat) (value : Option V) :
    hashOK hsh (s.remove key hash value).2.1.table := by
  have hidx := and_mask_lt (tableLen_pos h.twf) hash
  simp only [Segment.remove]
  split
  case _ pms hsp =>
    split
    · obtain ⟨pre, e, suf⟩ := pms
      obtain ⟨hchain, hprenm, hehash, hekey⟩ := splitAtMatch_spec hsp
      rw [hashOK_iff]
      intro a ha
      rcases mem_flatten_set _ _ _ hidx a ha with h2 | h2
      · have hmem : a ∈ s.table.getD (hash &&& (s.table.length - 1)) [] := by
          rw [hchain]
          rcases List.mem_append.1 h2 with h3 | h3
          · exact List.mem_append_left _ (List.mem_reverse.1 h3)
          · exact List.mem_append_right _ (List.mem_cons_of_mem _ h3)
        exact (hashOK_iff hsh s.table).1 hOK a (mem_getD_flatten _ _ _ hmem)
      · exact (hashOK_iff hsh s.table).1 hOK a h2
    · exact hOK
  · exact hOK

theorem hashOK_replace {hsh : K → Nat} {s : Segment K V} (h : SegWF s)
    (hOK : hashOK hsh s.table) (key : K) (hash : Nat) (v : V) :
    hashOK hsh (s.replace key hash v).2.table := by
  simp only [Segment.replace]
  split
  · exact hashOK_setStore h hOK key hash v
  · exact hOK

theorem hashOK_replaceWithOld {hsh : K → Nat} {s : Segment K V} (h : SegWF s)
    (hOK : hashOK hsh s.table) (key : K) (hash : Nat) (ov nv : V) :
    hashOK hsh (s.replaceWithOld key hash ov nv).2.table := by
  simp only [Segment.replaceWithOld]
  split
  · split
    · exact hashOK_setStore h hOK key hash nv
    · exact hOK
  · exact hOK

theorem hashOK_clear {hsh : K → Nat} {s : Segment K V} (hOK : hashOK hsh s.table) :
    hashOK hsh (s.clear).1.table := by
  simp only [Segment.clear]
  split
  · intro c hc e he
    have : c = [] := List.eq_of_mem_replicate hc
    rw [this] at he
    simp at he
  · exact hOK

/-! ## `growLoop` lemmas -/

theorem growLoop_pow (target : Nat) : ∀ (fuel sshift ssize : Nat), ssize = 2 ^ sshift →
    (growLoop target fuel sshift ssize).2 = 2 ^ (growLoop target fuel sshift ssize).1 := by
  intro fuel
  induction fuel with
  | zero => exact fun _ _ h => h
  | succ n ih =>
    intro sshift ssize h
    rw [growLoop]
    split
    · exact ih _ _ (by rw [h, Nat.shiftLeft_eq, pow_one, pow_succ])
    · exact h

theorem growLoop_ge (target : Nat) : ∀ (fuel sshift ssize : Nat),
    target ≤ 2 ^ fuel * ssize → target ≤ (growLoop target fuel sshift ssize).2 := by
  intro fuel
  induction fuel with
  | zero => intro _ ssize h; simpa using h
  | succ n ih =>
    intro sshift ssize h
    rw [growLoop]
    split
    · refine ih _ _ ?_
      rw [Nat.shiftLeft_eq, pow_one]
      calc target ≤ 2 ^ (n + 1) * ssize := h
      _ = 2 ^ n * (ssize * 2) := by ring
    · omega

theorem growLoop_le (target : Nat) : ∀ (fuel sshift ssize q : Nat), ssize ≤ q →
    target ≤ q → (∃ js, ssize = 2 ^ js) → (∃ jq, q = 2 ^ jq) →
    (growLoop target fuel sshift ssize).2 ≤ q := by
  intro fuel
  induction fuel with
  | zero => intro _ _ _ h _ _ _; exact h
  | succ n ih =>
    intro sshift ssize q hsq htq hs hq
    rw [growLoop]
    split
    case _ hlt =>
      obtain ⟨a, ha⟩ := hs
      obtain ⟨b, hb⟩ := hq
      have hab : a < b := by
        by_contra hc
        have : 2 ^ b ≤ 2 ^ a := Nat.pow_le_pow_right (by omega) (by omega)
        omega
      refine ih _ _ _ ?_ htq ⟨a + 1, by rw [Nat.shiftLeft_eq, pow_one, ha, pow_succ]⟩ ⟨b, hb⟩
      rw [Nat.shiftLeft_eq, pow_one, ha, hb, ← pow_succ]
      exact Nat.pow_le_pow_right (by omega) (by omega)
    · exact hsq

/-! ## Map-level preservation -/

theorem segAt_mem {hsh : K → Nat} {m : CMap K V} (hm : MapWF hsh m) (hash : Nat) :
    m.segAt hash ∈ m.segments := by
  have hidx : m.segmentIdx hash < m.segments.length :=
    lt_of_le_of_lt Nat.and_le_right hm.maskLt
  rw [CMap.segAt, getD_eq_getElem _ _ _ hidx]
  exact List.getElem_mem hidx

theorem MapWF_atSegment {hsh : K → Nat} {m : CMap K V} (hm : MapWF hsh m) (hash : Nat)
    {α : Type} (f : Segment K V → α × Segment K V × Int)
    (hf : ∀ s, SegWF s → SegWF (f s).2.1)
    (hfOK : ∀ s, SegWF s → hashOK hsh s.table → hashOK hsh (f s).2.1.table) :
    MapWF hsh (m.atSegment hash f).2 := by
  have hmem : m.segAt hash ∈ m.segments := segAt_mem hm hash
  simp only [CMap.atSegment]
  refine ⟨?_, ?_, ?_⟩
  · simpa using hm.maskLt
  · intro s2 hs2
    rcases List.mem_or_eq_of_mem_set hs2 with h2 | h2
    · exact hm.segs s2 h2
    · rw [h2]
      exact hf _ (hm.segs _ hmem)
  · intro s2 hs2
    rcases List.mem_or_eq_of_mem_set hs2 with h2 | h2
    · exact hm.hashes s2 h2
    · rw [h2]
      exact hfOK _ (hm.segs _ hmem) (hm.hashes _ hmem)

theorem MapWF_Put {hsh : K → Nat} {m : CMap K V} (hm : MapWF hsh m) (k : K) (v : V) :
    MapWF hsh (m.Put hsh k v).2 :=
  MapWF_atSegment hm (hsh k) _ (fun s hs => SegWF_put hs k (hsh k) v false)
    (fun s hs hOK => hashOK_put hs hOK k v false)

theorem MapWF_PutIfAbsent {hsh : K → Nat} {m : CMap K V} (hm : MapWF hsh m) (k : K)
    (v : V) : MapWF hsh (m.PutIfAbsent hsh k v).2 :=
  MapWF_atSegment hm (hsh k) _ (fun s hs => SegWF_put hs k (hsh k) v true)
    (fun s hs hOK => hashOK_put hs hOK k v true)

theorem MapWF_Remove {hsh : K → Nat} {m : CMap K V} (hm : MapWF hsh m) (k : K) :
    MapWF hsh (m.Remove hsh k).2 :=
  MapWF_atSegment hm (hsh k) _ (fun s hs => SegWF_remove hs k (hsh k) none)
    (fun s hs hOK => hashOK_remove hs hOK k (hsh k) none)

theorem MapWF_RemoveEntry {hsh : K → Nat} {m : CMap K V} (hm : MapWF hsh m) (k : K)
    (v : V) : MapWF hsh (m.RemoveEntry hsh k v).2 :=
  MapWF_atSegment hm (hsh k) _ (fun s hs => SegWF_remove hs k (hsh k) (some v))
    (fun s hs hOK => hashOK_remove hs hOK k (hsh k) (some v))

theorem MapWF_Replace {hsh : K → Nat} {m : CMap K V} (hm : MapWF hsh m) (k : K) (v : V) :
    MapWF hsh (m.Replace hsh k v).2 :=
  MapWF_atSegment hm (hsh k) _ (fun s hs => SegWF_replace hs k (hsh k) v)
    (fun s hs hOK => hashOK_replace hs hOK k (hsh k) v)

theorem MapWF_CompareAndReplace {hsh : K → Nat} {m : CMap K V} (hm : MapWF hsh m)
    (k : K) (ov nv : V) : MapWF hsh (m.CompareAndReplace hsh k ov nv).2 :=
  MapWF_atSegment hm (hsh k) _ (fun s hs => SegWF_replaceWithOld hs k (hsh k) ov nv)
    (fun s hs hOK => hashOK_replaceWithOld hs hOK k (hsh k) ov nv)

theorem MapWF_Clear {hsh : K → Nat} {m : CMap K V} (hm : MapWF hsh m) :
    MapWF hsh m.Clear := by
  simp only [CMap.Clear]
  refine ⟨?_, ?_, ?_⟩
  · simpa using hm.maskLt
  · intro s2 hs2
    obtain ⟨s, hs, rfl⟩ := List.mem_map.1 hs2
    exact SegWF_clear (hm.segs s hs)
  · intro s2 hs2
    obtain ⟨s, hs, rfl⟩ := List.mem_map.1 hs2
    exact hashOK_clear (hm.hashes s hs)

theorem SegWF_newSegment (cap : Nat) (lf : ℚ) (hpow : ∃ j, cap = 2 ^ j) :
    SegWF (newSegment cap lf : Segment K V) := by
  refine ⟨⟨?_, ?_, ?_⟩, ?_⟩
  · simpa [newSegment] using hpow
  · intro i a ha
    simp only [newSegment] at ha
    rw [getD_replicate_nil] at ha
    simp at ha
  · intro i
    simp only [newSegment]
    rw [getD_replicate_nil]
    exact List.Pairwise.nil
  · simp [newSegment, totalEntries, flatten_replicate_nil]

theorem hashOK_newSegment (hsh : K → Nat) (cap : Nat) (lf : ℚ) :
    hashOK hsh (newSegment cap lf : Segment K V).table := by
  intro c hc e he
  simp only [newSegment] at hc
  rw [List.eq_of_mem_replicate hc] at he
  simp at he

theorem MapWF_newConcurrentMap3 {hsh : K → Nat} (ic : Int) (lf : ℚ) (cl : Int)
    (m : CMap K V) (h : newConcurrentMap3 ic lf cl = .ok m) : MapWF hsh m := by
  simp only [newConcurrentMap3] at h
  split at h
  · cases h
  have hpow : (growLoop (if cl > (MAX_SEGMENTS : Int) then MAX_SEGMENTS else cl.toNat)
      64 0 1).2 = 2 ^ (growLoop (if cl > (MAX_SEGMENTS : Int) then MAX_SEGMENTS
        else cl.toNat) 64 0 1).1 :=
    growLoop_pow _ 64 0 1 (by norm_num)
  have hpos : 1 ≤ (growLoop (if cl > (MAX_SEGMENTS : Int) then MAX_SEGMENTS
      else cl.toNat) 64 0 1).2 := by
    rw [hpow]
    exact Nat.one_le_two_pow
  cases h
  refine ⟨?_, ?_, ?_⟩
  · simp only [List.length_replicate]
    omega
  · intro s2 hs2
    rw [List.eq_of_mem_replicate hs2]
    refine SegWF_newSegment _ _ ⟨_, growLoop_pow _ 64 0 1 (by norm_num)⟩
  · intro s2 hs2
    rw [List.eq_of_mem_replicate hs2]
    exact hashOK_newSegment hsh _ _

theorem Reachable.mapWF {hsh : K → Nat} {m : CMap K V} (h : Reachable hsh m) :
    MapWF hsh m := by
  induction h with
  | base ic lf cl m hok => exact MapWF_newConcurrentMap3 ic lf cl m hok
  | put m k v _ ih => exact MapWF_Put ih k v
  | putIfAbsent m k v _ ih => exact MapWF_PutIfAbsent ih k v
  | remove m k _ ih => exact MapWF_Remove ih k
  | removeEntry m k v _ ih => exact MapWF_RemoveEntry ih k v
  | replace m k v _ ih => exact MapWF_Replace ih k v
  | compareAndReplace m k v w _ ih => exact MapWF_CompareAndReplace ih k v w
  | clear m _ ih => exact MapWF_Clear ih

/-! ## Map-level behaviour -/

theorem map_put_get {hsh : K → Nat} {m : CMap K V} (hm : MapWF hsh m) (k : K) (v : V) :
    (m.Put hsh k v).2.Get hsh k = some v := by
  have hidx : m.segmentIdx (hsh k) < m.segments.length :=
    lt_of_le_of_lt Nat.and_le_right hm.maskLt
  simp only [CMap.segmentIdx] at hidx
  simp only [CMap.Put, CMap.atSegment, CMap.Get, CMap.segAt, CMap.segmentIdx]
  rw [getD_set_self _ _ _ _ hidx]
  exact seg_put_get (hm.segs _ (segAt_mem hm (hsh k))) k (hsh k) v

theorem map_remove_get {hsh : K → Nat} {m : CMap K V} (hm : MapWF hsh m) (k : K) :
    (m.Remove hsh k).2.Get hsh k = none := by
  have hidx : m.segmentIdx (hsh k) < m.segments.length :=
    lt_of_le_of_lt Nat.and_le_right hm.maskLt
  simp only [CMap.segmentIdx] at hidx
  simp only [CMap.Remove, CMap.atSegment, CMap.Get, CMap.segAt, CMap.segmentIdx]
  rw [getD_set_self _ _ _ _ hidx]
  exact seg_remove_get (hm.segs _ (segAt_mem hm (hsh k))) k (hsh k)

/-- `segWFb` really implies well-formedness. -/
theorem SegWF_of_b {s : Segment K V} (h : segWFb s = true) : SegWF s := by
  simp only [segWFb, Bool.and_eq_true, beq_iff_eq, List.all_eq_true, List.any_eq_true,
    decide_eq_true_eq] at h
  obtain ⟨⟨⟨hpow, hplaced⟩, huniq⟩, hcnt⟩ := h
  obtain ⟨j, _, hj⟩ := hpow
  refine ⟨⟨⟨j, hj⟩, ?_, ?_⟩, hcnt⟩
  · intro i e he
    have hi : i < s.table.length := mem_getD_lt _ _ _ he
    exact hplaced i (List.mem_range.2 hi) e he
  · intro i
    by_cases hi : i < s.table.length
    · exact huniq i (List.mem_range.2 hi)
    · have : s.table.getD i [] = [] := by
        simp [List.getD, List.getElem?_eq_none (Nat.le_of_not_lt hi)]
      rw [this]
      exact List.Pairwise.nil

/-! ## Claims -/

/-- C1 (code bug in `IsEmpty`): the source of both variants returns
`count > 0`, the inversion of "true iff the map contains no mappings".
Evaluated at the failing inputs: the freshly constructed default map has
`Size() = 0` yet `IsEmpty()` returns `false`, and after `Put(1,"a")` it has
`Size() = 1` yet `IsEmpty()` returns `true`. -/
theorem C1_isEmpty_inverted :
    defaultNatMap.IsEmpty = false ∧ defaultNatMap.Size = 0 ∧
      (defaultNatMap.Put natHash 1 "a").2.IsEmpty = true ∧
      (defaultNatMap.Put natHash 1 "a").2.Size = 1 := by
  decide

/-- C2 (deterministic literal scenario): construct with defaults, insert
(1→"a"), (2→"b"), (3→"c"); then `Size`, `Get`, `PutIfAbsent`,
`CompareAndReplace`, `RemoveEntry`, `Remove` behave as specified and the
iterator yields exactly {(1,"a"), (2,"B")} in some order. -/
theorem C2_deterministic_scenario :
    (NewConcurrentMap [] : Except GoError (CMap Nat String)) = .ok defaultNatMap ∧
      c2afterPuts.Size = 3 ∧
      c2afterPuts.Get natHash 2 = some "b" ∧
      (c2afterPuts.PutIfAbsent natHash 2 "z").1 = some "b" ∧
      (c2afterPuts.PutIfAbsent natHash 2 "z").2 = c2afterPuts ∧
      (c2afterPuts.CompareAndReplace natHash 2 "b" "B").1 = true ∧
      c2afterCAR.Get natHash 2 = some "B" ∧
      (c2afterCAR.RemoveEntry natHash 3 "x").1 = false ∧
      c2afterRE = c2afterCAR ∧
      (c2afterRE.Remove natHash 3).1 = some "c" ∧
      c2final.Size = 2 ∧
      (c2final.iterEntries.map fun e => (e.key, e.value)).Perm [(1, "a"), (2, "B")] := by
  refine ⟨rfl, ?_⟩
  decide

/-- C3 (round trip): on every serially reachable map state, for every key
and value (non-nil by typing) and every provided hash function, `Put(k,v)`
makes `Get(k)` return `v`, and a subsequent `Remove(k)` makes `Get(k)`
return `nil`. -/
theorem C3_roundtrip {hsh : K → Nat} {m : CMap K V} (hr : Reachable hsh m)
    (k : K) (v : V) :
    (m.Put hsh k v).2.Get hsh k = some v ∧
      ((m.Put hsh k v).2.Remove hsh k).2.Get hsh k = none :=
  ⟨map_put_get hr.mapWF k v, map_remove_get (MapWF_Put hr.mapWF k v) k⟩

theorem C3_roundtrip_witness :
    (defaultNatMap.Put natHash 5 "x").2.Get natHash 5 = some "x" ∧
      ((defaultNatMap.Put natHash 5 "x").2.Remove natHash 5).2.Get natHash 5 = none :=
  C3_roundtrip (Reachable.base 64 (mkRat 3 4) 16 defaultNatMap rfl) 5 "x"

/-- C7 (uniqueness invariant S3/P4): in every serially reachable map state,
no bucket chain holds two entries agreeing on both hash and key, and (since
every stored entry carries the hash of its own key) each chain holds at most
one entry per key. -/
theorem C7_chain_uniqueness {hsh : K → Nat} {m : CMap K V} (hr : Reachable hsh m)
    (s : Segment K V) (hs : s ∈ m.segments) (i : Nat) :
    chainUnique (s.table.getD i []) ∧
      (s.table.getD i []).Pairwise fun a b => a.key ≠ b.key := by
  have hm := hr.mapWF
  refine ⟨(hm.segs s hs).twf.uniq i, ?_⟩
  have huniq := (hm.segs s hs).twf.uniq i
  have hchain : ∀ e ∈ s.table.getD i [], e.hash = hsh e.key := fun e he =>
    (hashOK_iff hsh s.table).1 (hm.hashes s hs) e (mem_getD_flatten _ _ _ he)
  refine List.Pairwise.imp_of_mem ?_ huniq
  intro a b ha hb hr2 hk
  exact hr2 ⟨by rw [hchain a ha, hchain b hb, hk], hk⟩

theorem C7_chain_uniqueness_witness :
    chainUnique ((((defaultNatMap.Put natHash 1 "a").2.Put natHash 17 "b").2.segments.getD
        0 defaultSeg).table.getD 1 []) ∧
      (((((defaultNatMap.Put natHash 1 "a").2.Put natHash 17 "b").2.segments.getD
        0 defaultSeg).table.getD 1 [])).Pairwise fun a b => a.key ≠ b.key :=
  C7_chain_uniqueness
    (show Reachable natHash ((defaultNatMap.Put natHash 1 "a").2.Put natHash 17 "b").2 from
      Reachable.put _ 17 "b" (Reachable.put _ 1 "a"
        (Reachable.base 64 (mkRat 3 4) 16 defaultNatMap rfl)))
    _ (by decide) 1

theorem putCore_table_length (s1 : Segment K V) (key : K) (hash : Nat) (v : V)
    (only : Bool) : (s1.putCore key hash v only).2.1.table.length = s1.table.length := by
  simp only [Segment.putCore]
  split
  · split
    · rfl
    · simp [List.length_set]
  · simp [List.length_set]

theorem putCore_insert_mem (s1 : Segment K V) (key : K) (hash : Nat) (v : V) (only : Bool)
    (h1 : SegWF s1)
    (habs : findEntry hash key (s1.table.getD (hash &&& (s1.table.length - 1)) []) = none) :
    (⟨key, hash, v⟩ : Entry K V) ∈
      (s1.putCore key hash v only).2.1.table.getD (hash &&& (s1.table.length - 1)) [] := by
  have hidx := and_mask_lt (tableLen_pos h1.twf) hash
  simp only [Segment.putCore]
  split
  case _ e hfe => rw [habs] at hfe; cases hfe
  case _ hfe =>
    rw [getD_set_self _ _ _ _ hidx]
    exact List.mem_cons_self _ _

theorem rehash_grow {s : Segment K V} (h : SegWF s) (htrig : s.count > s.threshold)
    (hcap : s.table.length < MAXIMUM_CAPACITY) :
    s.rehash.table.length = 2 * s.table.length := by
  rw [Segment.rehash, if_pos htrig, Segment.rehashUnguarded, if_neg (by omega)]
  exact (rehashTable_master _ h.twf).1

/-- C4 counterexample: a map reachable by `newConcurrentMap3(1, 1, 1)` and
`Put(1, "a")` has `count = threshold = 1` in its only segment, so
`count + 1 > threshold` holds when `Put(2, "b")` begins; yet the code only
rehashes on `count > threshold`, so no rehash happens and the new entry
lands in the old 1-slot table. -/
theorem C4_trigger_counterexample :
    (newConcurrentMap3 1 1 1 : Except GoError (CMap Nat String)) = .ok c4base ∧
      (c4map.segAt (natHash 2)).count + 1 > (c4map.segAt (natHash 2)).threshold ∧
      (c4map.segAt (natHash 2)).table.length = 1 ∧
      1 < MAXIMUM_CAPACITY ∧
      ((c4map.Put natHash 2 "b").2.segAt (natHash 2)).table.length = 1 ∧
      (c4map.Put natHash 2 "b").2.Get natHash 2 = some "b" := by
  refine ⟨rfl, ?_⟩
  decide

/-- C4 as amended: for every `put` (either `onlyIfAbsent` mode), if
`count > threshold` when the operation begins — the condition the code
actually checks, i.e. `count + 1 > threshold + 1` — and the table is below
`MAXIMUM_CAPACITY`, the segment is rehashed (the table doubles) before the
insertion, and an absent key's new entry lands in the grown table. -/
theorem C4_rehash_before_insert {s : Segment K V} (h : SegWF s) (key : K) (hash : Nat)
    (v : V) (only : Bool) (htrig : s.count > s.threshold)
    (hcap : s.table.length < MAXIMUM_CAPACITY) :
    (s.put key hash v only).2.1.table.length = 2 * s.table.length ∧
      ((∀ e ∈ s.table.flatten, ¬(e.hash = hash ∧ e.key = key)) →
        (⟨key, hash, v⟩ : Entry K V) ∈
          (s.put key hash v only).2.1.table.getD (hash &&& (2 * s.table.length - 1)) []) := by
  rw [Segment.put, if_pos htrig]
  have hs1 : SegWF s.rehash := SegWF_rehash h
  have hlen : s.rehash.table.length = 2 * s.table.length := rehash_grow h htrig hcap
  constructor
  · rw [putCore_table_length, hlen]
  · intro habs
    have habs2 : findEntry hash key
        (s.rehash.table.getD (hash &&& (s.rehash.table.length - 1)) []) = none := by
      rw [findEntry_eq_none_iff]
      intro e he
      exact habs e ((rehash_table_flatten_perm h).mem_iff.1 (mem_getD_flatten _ _ _ he))
    have hm := putCore_insert_mem s.rehash key hash v only hs1 habs2
    rw [hlen] at hm
    exact hm

theorem C4_rehash_before_insert_witness :
    ((c4wseg.put 2 2 "c" false).2.1.table.length = 2 * c4wseg.table.length) ∧
      (⟨2, 2, "c"⟩ : Entry Nat String) ∈
        (c4wseg.put 2 2 "c" false).2.1.table.getD (2 &&& (2 * c4wseg.table.length - 1)) [] :=
  have h := C4_rehash_before_insert (SegWF_of_b (by decide)) 2 2 "c" false (by decide)
    (by decide)
  ⟨h.1, h.2 (by decide)⟩

/-- C6: rehash never shrinks; it is a no-op at `MAXIMUM_CAPACITY`, and below
it the table doubles, every old entry is reachable in the new table at
`hash & (newLen − 1)` — its old index `i` or `i + oldLen` — and the multiset
of entries (hence the set of key-value mappings) is unchanged.  Stated for
the shared rehash body (`wLockingSegment.rehash`); the CAS variant's
`Segment.rehash` equals it under its `count > threshold` re-check, which
holds whenever `put` invokes it. -/
theorem C6_rehash_properties (s : Segment K V) (h : SegWF s) :
    (s.table.length = MAXIMUM_CAPACITY → s.rehashUnguarded = s) ∧
      s.table.length ≤ s.rehashUnguarded.table.length ∧
      (s.table.length < MAXIMUM_CAPACITY →
        s.rehashUnguarded.table.length = 2 * s.table.length ∧
        (∀ i, ∀ e ∈ s.table.getD i [],
          e ∈ s.rehashUnguarded.table.getD (e.hash &&& (2 * s.table.length - 1)) [] ∧
          (e.hash &&& (2 * s.table.length - 1) = i ∨
            e.hash &&& (2 * s.table.length - 1) = i + s.table.length)) ∧
        s.rehashUnguarded.table.flatten.Perm s.table.flatten) ∧
      (s.count > s.threshold → s.rehash = s.rehashUnguarded) := by
  refine ⟨?_, ?_, ?_, ?_⟩
  · intro hmax
    rw [Segment.rehashUnguarded, if_pos (by omega)]
  · by_cases hc : s.table.length ≥ MAXIMUM_CAPACITY
    · rw [Segment.rehashUnguarded, if_pos hc]
    · rw [Segment.rehashUnguarded, if_neg hc]
      have := (rehashTable_master _ h.twf).1
      simp only
      omega
  · intro hcap
    rw [Segment.rehashUnguarded, if_neg (by omega)]
    refine ⟨(rehashTable_master _ h.twf).1, ?_, (rehashTable_master _ h.twf).2.2⟩
    intro i e he
    refine ⟨mem_rehashTable _ h.twf i e he, ?_⟩
    obtain ⟨m, hm⟩ := h.twf.pow
    have hplaced := h.twf.placed i e he
    have hd := and_double_mask m e.hash
    rw [← hm] at hd
    have h2L : 2 * s.table.length - 1 = 2 ^ (m + 1) - 1 := by rw [pow_succ, ← hm]; omega
    rw [h2L]
    rcases hd with h2 | h2
    · exact Or.inl (by rw [h2, hplaced])
    · exact Or.inr (by rw [h2, hplaced])
  · intro htrig
    rw [Segment.rehash, if_pos htrig]

theorem C6_rehash_properties_witness :
    c6seg.rehashUnguarded.table.length = 2 * c6seg.table.length ∧
      (⟨5, 5, "z"⟩ : Entry Nat String) ∈
        c6seg.rehashUnguarded.table.getD (5 &&& (2 * c6seg.table.length - 1)) [] ∧
      c6seg.rehashUnguarded.table.flatten.Perm c6seg.table.flatten :=
  have h := C6_rehash_properties c6seg (SegWF_of_b (by decide))
  have h2 := h.2.2.1 (by decide)
  ⟨h2.1, (h2.2.1 1 ⟨5, 5, "z"⟩ (by decide)).1, h2.2.2⟩

/-! ## Heap-model lemmas for the `remove` chain surgery -/

theorem linkedB_bounds {heap : List (HEntry K V)} : ∀ (addrs : List Nat) (stop : Option Nat),
    linkedB heap addrs stop = true → ∀ a ∈ addrs, a < heap.length := by
  intro addrs
  induction addrs with
  | nil => intro stop _ a ha; simp at ha
  | cons b rest ih =>
    intro stop hl a ha
    simp only [linkedB] at hl
    rcases hgb : heap.get? b with _ | e <;> rw [hgb] at hl
    · cases hl
    · rcases List.mem_cons.1 ha with rfl | ha2
      · by_contra hc
        rw [List.get?_eq_none.2 (Nat.le_of_not_lt hc)] at hgb
        cases hgb
      · rw [Bool.and_eq_true] at hl
        exact ih stop hl.2 a ha2

theorem linkedB_extend {heap tl : List (HEntry K V)} : ∀ (addrs : List Nat)
    (stop : Option Nat), linkedB heap addrs stop = true →
    linkedB (heap ++ tl) addrs stop = true := by
  intro addrs
  induction addrs with
  | nil => intro stop _; rfl
  | cons b rest ih =>
    intro stop hl
    simp only [linkedB] at hl ⊢
    rcases hgb : heap.get? b with _ | e <;> rw [hgb] at hl
    · cases hl
    · have hb : b < heap.length := by
        by_contra hc
        rw [List.get?_eq_none.2 (Nat.le_of_not_lt hc)] at hgb
        cases hgb
      rw [List.get?_append hb, hgb]
      rw [Bool.and_eq_true] at hl ⊢
      exact ⟨hl.1, ih stop hl.2⟩

theorem linkedB_append_right {heap : List (HEntry K V)} : ∀ (A : List Nat) (B : List Nat)
    (stop : Option Nat), linkedB heap (A ++ B) stop = true → linkedB heap B stop = true := by
  intro A
  induction A with
  | nil => exact fun B stop h => h
  | cons a A ih =>
    intro B stop hl
    rw [List.cons_append] at hl
    simp only [linkedB] at hl
    rcases hga : heap.get? a with _ | e <;> rw [hga] at hl
    · cases hl
    · rw [Bool.and_eq_true] at hl
      exact ih B stop hl.2

theorem linkedB_mid {heap : List (HEntry K V)} : ∀ (A : List Nat) (b : Nat) (B : List Nat)
    (stop : Option Nat), linkedB heap (A ++ b :: B) stop = true →
    ∃ eb, heap.get? b = some eb ∧ eb.next = Option.or B.head? stop := by
  intro A b B stop hl
  have h2 := linkedB_append_right A (b :: B) stop hl
  simp only [linkedB] at h2
  rcases hgb : heap.get? b with _ | e <;> rw [hgb] at h2
  · cases h2
  · refine ⟨e, rfl, ?_⟩
    rw [Bool.and_eq_true] at h2
    exact beq_iff_eq.1 h2.1

theorem or_head_append {A : List Nat} {b : Nat} {stop : Option Nat} :
    Option.or (A ++ [b]).head? stop = Option.or A.head? (some b) := by
  rcases A with _ | ⟨a2, A2⟩ <;> rfl

theorem linkedB_snoc {heap : List (HEntry K V)} : ∀ (A : List Nat) (b : Nat)
    (eb : HEntry K V) (stop : Option Nat), linkedB heap A (some b) = true →
    heap.get? b = some eb → eb.next = stop → linkedB heap (A ++ [b]) stop = true := by
  intro A
  induction A with
  | nil =>
    intro b eb stop _ hgb hnext
    simp only [List.nil_append, linkedB]
    rw [hgb]
    simp [hnext]
  | cons a A ih =>
    intro b eb stop hl hgb hnext
    rw [List.cons_append]
    simp only [linkedB] at hl ⊢
    rcases hga : heap.get? a with _ | e <;> rw [hga] at hl
    · cases hl
    · rw [Bool.and_eq_true] at hl ⊢
      refine ⟨?_, ih b eb stop hl.2 hgb hnext⟩
      rw [or_head_append]
      exact hl.1

theorem entriesOf_append (heap : List (HEntry K V)) (A B : List Nat) :
    entriesOf heap (A ++ B) = entriesOf heap A ++ entriesOf heap B :=
  List.filterMap_append _ _ _

theorem entriesOf_stable {heap tl : List (HEntry K V)} : ∀ (addrs : List Nat),
    (∀ a ∈ addrs, a < heap.length) → entriesOf (heap ++ tl) addrs = entriesOf heap addrs := by
  intro addrs
  induction addrs with
  | nil => intro _; rfl
  | cons a rest ih =>
    intro hb
    simp only [entriesOf, List.filterMap_cons] at ih ⊢
    rw [List.get?_append (hb a (List.mem_cons_self a rest))]
    rcases heap.get? a with _ | e
    · exact ih fun x hx => hb x (List.mem_cons_of_mem _ hx)
    · rw [ih fun x hx => hb x (List.mem_cons_of_mem _ hx)]

/-- The full accounting of the clone loop of `remove`: the heap only grows
(no existing entry is touched), the freshly allocated clones form a chain of
the preceding entries in reversed order ending at the given `newFirst`, and
the returned head is the last clone (or the unchanged `newFirst` when
nothing precedes the removed entry). -/
theorem removeClones_spec : ∀ (ps : List Nat) (heap : List (HEntry K V)) (nf : Option Nat),
    (∀ a ∈ ps, a < heap.length) →
    (∃ tl, (removeClones heap ps nf).1 = heap ++ tl) ∧
      linkedB (removeClones heap ps nf).1 ((List.range' heap.length ps.length).reverse) nf
        = true ∧
      entriesOf (removeClones heap ps nf).1 ((List.range' heap.length ps.length).reverse)
        = (entriesOf heap ps).reverse ∧
      (removeClones heap ps nf).2 =
        (if ps = [] then nf else some (heap.length + ps.length - 1)) := by
  intro ps
  induction ps with
  | nil =>
    intro heap nf _
    exact ⟨⟨[], by simp [removeClones]⟩, rfl, rfl, rfl⟩
  | cons p ps ih =>
    intro heap nf hb
    have hp : p < heap.length := hb p (List.mem_cons_self p ps)
    have hpe : heap.get? p = some heap[p] := by
      rw [List.get?_eq_getElem?, List.getElem?_eq_getElem hp]
    have hred : removeClones heap (p :: ps) nf =
        removeClones (heap ++ [⟨heap[p].key, heap[p].hash, heap[p].value, nf⟩]) ps
          (some heap.length) := by
      simp only [removeClones]
      rw [hpe]
    have hlen2 : (heap ++ [(⟨heap[p].key, heap[p].hash, heap[p].value, nf⟩ : HEntry K V)]).length
        = heap.length + 1 := by simp
    have hb2 : ∀ a ∈ ps,
        a < (heap ++ [(⟨heap[p].key, heap[p].hash, heap[p].value, nf⟩ : HEntry K V)]).length := by
      intro a ha
      rw [hlen2]
      exact Nat.lt_succ_of_lt (hb a (List.mem_cons_of_mem _ ha))
    obtain ⟨⟨tl, htl⟩, hlink, hent, hnf⟩ :=
      ih (heap ++ [⟨heap[p].key, heap[p].hash, heap[p].value, nf⟩]) (some heap.length) hb2
    have haddr : (List.range' heap.length (p :: ps).length).reverse =
        (List.range' (heap.length + 1) ps.length).reverse ++ [heap.length] := by
      rw [List.length_cons, List.range'_succ, List.reverse_cons]
    have hgetc : (removeClones (heap ++ [⟨heap[p].key, heap[p].hash, heap[p].value, nf⟩]) ps
        (some heap.length)).1.get? heap.length =
        some ⟨heap[p].key, heap[p].hash, heap[p].value, nf⟩ := by
      rw [htl, List.get?_append (by simp :
        heap.length < (heap ++
          [(⟨heap[p].key, heap[p].hash, heap[p].value, nf⟩ : HEntry K V)]).length)]
      exact List.get?_concat_length heap _
    refine ⟨⟨⟨heap[p].key, heap[p].hash, heap[p].value, nf⟩ :: tl, ?_⟩, ?_, ?_, ?_⟩
    · rw [hred, htl, List.append_assoc]
      rfl
    · rw [hred, haddr]
      refine linkedB_snoc _ heap.length ⟨heap[p].key, heap[p].hash, heap[p].value, nf⟩ nf
        ?_ hgetc rfl
      rw [hlen2] at hlink
      exact hlink
    · rw [hred, haddr, entriesOf_append]
      have hstable : entriesOf (heap ++ [(⟨heap[p].key, heap[p].hash, heap[p].value, nf⟩ :
          HEntry K V)]) ps = entriesOf heap ps :=
        entriesOf_stable ps fun a ha => hb a (List.mem_cons_of_mem _ ha)
      rw [hlen2] at hent
      rw [hent, hstable]
      have hconsent : entriesOf heap (p :: ps) =
          (heap[p].key, heap[p].hash, heap[p].value) :: entriesOf heap ps := by
        simp only [entriesOf, List.filterMap_cons, hpe]
        rfl
      rw [hconsent, List.reverse_cons]
      have : entriesOf (removeClones (heap ++
          [(⟨heap[p].key, heap[p].hash, heap[p].value, nf⟩ : HEntry K V)]) ps
          (some heap.length)).1 [heap.length] =
          [(heap[p].key, heap[p].hash, heap[p].value)] := by
        simp only [entriesOf, List.filterMap_cons, hgetc]
        rfl
      rw [this]
    · rw [hred, hnf]
      rcases ps with _ | ⟨q, qs⟩
      · simp
      · rw [if_neg (List.cons_ne_nil q qs), if_neg (List.cons_ne_nil p (q :: qs)), hlen2]
        simp only [List.length_cons]
        congr 1
        omega

theorem or_head_append2 {A B : List Nat} {stop : Option Nat} :
    Option.or (A ++ B).head? stop = Option.or A.head? (Option.or B.head? stop) := by
  rcases A with _ | ⟨a2, A2⟩ <;> rfl

theorem linkedB_glue {heap : List (HEntry K V)} : ∀ (A B : List Nat) (stop : Option Nat),
    linkedB heap A (Option.or B.head? stop) = true → linkedB heap B stop = true →
    linkedB heap (A ++ B) stop = true := by
  intro A
  induction A with
  | nil => exact fun B stop _ hB => hB
  | cons a A ih =>
    intro B stop hA hB
    rw [List.cons_append]
    simp only [linkedB] at hA ⊢
    rcases hga : heap.get? a with _ | e <;> rw [hga] at hA
    · cases hA
    · rw [Bool.and_eq_true] at hA ⊢
      refine ⟨?_, ih B stop hA.2 hB⟩
      rw [or_head_append2]
      exact hA.1

/-- C5: whenever `remove` deletes the entry at address `ea` from a chain —
the entries at `pre` precede it, none of them matching, the entry `ee` at
`ea` matches on hash and key and passes the value test — the chain published
in its place consists of freshly allocated clones (addresses at or beyond
the old heap size) of exactly the preceding entries, in reversed order,
whose `next` chain terminates at the removed entry's `next`; every entry
after the removed one is the identical heap object at its old address with
its fields untouched, and the old heap is preserved verbatim as a prefix —
no existing entry's `key`, `hash`, `value` or `next` is mutated. -/
theorem C5_remove_chain_surgery (heap : List (HEntry K V)) (pre suf : List Nat) (ea : Nat)
    (ee : HEntry K V) (hash : Nat) (key : K) (value : Option V)
    (hlink : linkedB heap (pre ++ ea :: suf) none = true)
    (hee : heap.get? ea = some ee)
    (hpre : ∀ a ∈ pre, ∀ en, heap.get? a = some en → ¬(en.hash = hash ∧ en.key = key))
    (hmatch : ee.hash = hash ∧ ee.key = key)
    (hval : value = none ∨ value = some ee.value) :
    (∃ tl, (removeClones heap pre ee.next).1 = heap ++ tl) ∧
      (∀ a ∈ (List.range' heap.length pre.length).reverse, heap.length ≤ a) ∧
      linkedB (removeClones heap pre ee.next).1
        ((List.range' heap.length pre.length).reverse) ee.next = true ∧
      entriesOf (removeClones heap pre ee.next).1
        ((List.range' heap.length pre.length).reverse) = (entriesOf heap pre).reverse ∧
      (∀ a ∈ suf, a < heap.length) ∧
      linkedB (removeClones heap pre ee.next).1 suf none = true ∧
      entriesOf (removeClones heap pre ee.next).1 suf = entriesOf heap suf ∧
      linkedB (removeClones heap pre ee.next).1
        ((List.range' heap.length pre.length).reverse ++ suf) none = true ∧
      (removeClones heap pre ee.next).2 =
        (if pre = [] then ee.next else some (heap.length + pre.length - 1)) := by
  have hbpre : ∀ a ∈ pre, a < heap.length := fun a ha =>
    linkedB_bounds _ _ hlink a (List.mem_append_left _ ha)
  have hbsuf : ∀ a ∈ suf, a < heap.length := fun a ha =>
    linkedB_bounds _ _ hlink a (List.mem_append_right _ (List.mem_cons_of_mem _ ha))
  obtain ⟨⟨tl, htl⟩, hclones, hents, hnf⟩ := removeClones_spec pre heap ee.next hbpre
  have hsufold : linkedB heap suf none = true := by
    have h2 : linkedB heap ((pre ++ [ea]) ++ suf) none = true := by
      rw [List.append_assoc, List.singleton_append]
      exact hlink
    exact linkedB_append_right _ _ _ h2
  have heenext : ee.next = Option.or suf.head? none := by
    obtain ⟨eb, hgb, hnext⟩ := linkedB_mid pre ea suf none hlink
    rw [hee] at hgb
    cases hgb
    exact hnext
  have hfresh : ∀ a ∈ (List.range' heap.length pre.length).reverse, heap.length ≤ a := by
    intro a ha
    rw [List.mem_reverse] at ha
    exact (List.mem_range'_1.1 ha).1
  have hsufnew : linkedB (removeClones heap pre ee.next).1 suf none = true := by
    rw [htl]
    exact linkedB_extend _ _ hsufold
  refine ⟨⟨tl, htl⟩, hfresh, hclones, hents, hbsuf, hsufnew, ?_, ?_, hnf⟩
  · rw [htl]
    exact entriesOf_stable _ hbsuf
  · refine linkedB_glue _ _ _ ?_ hsufnew
    rw [← heenext]
    exact hclones

theorem C5_remove_chain_surgery_witness :
    (∃ tl, (removeClones c5heap [0] (some 2)).1 = c5heap ++ tl) ∧
      linkedB (removeClones c5heap [0] (some 2)).1 [3] (some 2) = true ∧
      entriesOf (removeClones c5heap [0] (some 2)).1 [3] = [(1, 1, "a")] ∧
      linkedB (removeClones c5heap [0] (some 2)).1 [3, 2] none = true ∧
      (removeClones c5heap [0] (some 2)).2 = some 3 :=
  have h := C5_remove_chain_surgery c5heap [0] [2] 1 ⟨2, 2, "b", some 2⟩ 2 2 none
    (by decide) (by decide)
    (by
      intro a ha en hen
      have ha0 : a = 0 := by simpa using ha
      subst ha0
      cases hen
      decide)
    (by decide) (Or.inl rfl)
  ⟨h.1, h.2.2.1, h.2.2.2.1, h.2.2.2.2.2.2.2.1, h.2.2.2.2.2.2.2.2⟩

/-- C8: construction fails with `IllegalArgument` exactly when the load
factor is nonpositive, the initial capacity negative, or the concurrency
level nonpositive; as an `Except`, the failure yields no map at all, i.e.
it precedes any state change.  (Load factors are exact rationals here; a Go
float32 NaN, on which `!(lf > 0)` holds but `lf ≤ 0` does not, has no
rational counterpart.) -/
theorem C8_construction_validation (ic : Int) (lf : ℚ) (cl : Int) :
    (newConcurrentMap3 ic lf cl : Except GoError (CMap K V)) = .error .IllegalArgError ↔
      (lf ≤ 0 ∨ ic < 0 ∨ cl ≤ 0) := by
  simp only [newConcurrentMap3]
  split
  case _ hcond =>
    constructor
    · intro _
      rcases hcond with h | h | h
      · exact Or.inl (not_lt.1 h)
      · exact Or.inr (Or.inl h)
      · exact Or.inr (Or.inr h)
    · intro _
      rfl
  case _ hcond =>
    push_neg at hcond
    constructor
    · intro h2
      exact absurd h2 (by simp)
    · intro h2
      rcases h2 with h2 | h2 | h2
      · exact absurd hcond.1 (not_lt.2 h2)
      · omega
      · omega

/-- C9: construction clamps the concurrency level to `2^16` and rounds it up
to a power of two to give the segment count (the smallest power of two at or
above the clamped level); it clamps the initial capacity to
`MAXIMUM_CAPACITY`; and every segment's initial table length is the smallest
power of two `p ≥ max 1 ⌈clampedCapacity / segmentCount⌉`, phrased through
the integer equivalence `p ≥ ⌈a / b⌉ ↔ a ≤ p * b`; in particular a zero
capacity yields length 1. -/
theorem C9_construction_sizing (ic : Int) (lf : ℚ) (cl : Int) (m : CMap K V)
    (h : newConcurrentMap3 ic lf cl = .ok m) :
    (∃ j, m.segments.length = 2 ^ j) ∧
      (min cl (MAX_SEGMENTS : Int)).toNat ≤ m.segments.length ∧
      (∀ q j, q = 2 ^ j → (min cl (MAX_SEGMENTS : Int)).toNat ≤ q →
        m.segments.length ≤ q) ∧
      ∀ s ∈ m.segments,
        (∃ j, s.table.length = 2 ^ j) ∧
        1 ≤ s.table.length ∧
        (min ic (MAXIMUM_CAPACITY : Int)).toNat ≤ s.table.length * m.segments.length ∧
        (∀ q j, q = 2 ^ j →
          (min ic (MAXIMUM_CAPACITY : Int)).toNat ≤ q * m.segments.length →
          s.table.length ≤ q) := by
  have hMS : (MAX_SEGMENTS : Nat) = 65536 := rfl
  have hMC : (MAXIMUM_CAPACITY : Nat) = 1073741824 := rfl
  simp only [newConcurrentMap3] at h
  split at h
  case _ => exact Except.noConfusion h
  case _ hcond =>
    rw [Except.ok.injEq] at h
    subst h
    set clp : Nat := if cl > (MAX_SEGMENTS : Int) then MAX_SEGMENTS else cl.toNat with hclp
    set ssize : Nat := (growLoop clp 64 0 1).2 with hssize
    set icc : Nat := if ic > (MAXIMUM_CAPACITY : Int) then MAXIMUM_CAPACITY
      else ic.toNat with hicc
    set c0 : Nat := icc / ssize with hc0
    set c : Nat := if c0 * ssize < icc then c0 + 1 else c0 with hc
    set cap : Nat := (growLoop c 64 0 1).2 with hcap
    have hclpmin : clp = (min cl (MAX_SEGMENTS : Int)).toNat := by
      rw [hclp]
      split <;> omega
    have hiccmin : icc = (min ic (MAXIMUM_CAPACITY : Int)).toNat := by
      rw [hicc]
      split <;> omega
    have hspow : ssize = 2 ^ (growLoop clp 64 0 1).1 :=
      growLoop_pow clp 64 0 1 (by norm_num)
    have hspos : 1 ≤ ssize := by
      rw [hspow]
      exact Nat.one_le_two_pow
    have hclpbound : clp ≤ 2 ^ 64 * 1 := by
      rw [hclp]
      split <;> omega
    have hsge : clp ≤ ssize := growLoop_ge clp 64 0 1 hclpbound
    have hiccbound : icc ≤ 1073741824 := by
      rw [hicc]
      split <;> omega
    have hdm : c0 * ssize + icc % ssize = icc := by
      rw [hc0, mul_comm]
      exact Nat.div_add_mod icc ssize
    have hmod : icc % ssize < ssize := Nat.mod_lt icc (by omega)
    have hceil1 : icc ≤ c * ssize := by
      rw [hc]
      split
      case _ hlt =>
        have hmul : (c0 + 1) * ssize = c0 * ssize + ssize := by ring
        omega
      case _ hlt => omega
    have hceil2 : ∀ q : Nat, icc ≤ q * ssize → c ≤ q := by
      intro q hq
      by_contra hcq
      push_neg at hcq
      rw [hc] at hcq
      split at hcq
      case _ hlt =>
        have h1 : q * ssize ≤ c0 * ssize := Nat.mul_le_mul_right ssize (by omega)
        omega
      case _ hlt =>
        have h2 : (q + 1) * ssize ≤ c0 * ssize := Nat.mul_le_mul_right ssize (by omega)
        have h3 : (q + 1) * ssize = q * ssize + ssize := by ring
        omega
    have hcbound : c ≤ 2 ^ 64 * 1 := by
      have : c0 ≤ icc := by
        rw [hc0]
        exact Nat.div_le_self icc ssize
      rw [hc]
      split <;> omega
    have hcapge : c ≤ cap := growLoop_ge c 64 0 1 hcbound
    have hcappow : cap = 2 ^ (growLoop c 64 0 1).1 := growLoop_pow c 64 0 1 (by norm_num)
    refine ⟨⟨(growLoop clp 64 0 1).1, ?_⟩, ?_, ?_, ?_⟩
    · simp only [List.length_replicate]
      exact hspow
    · simp only [List.length_replicate]
      omega
    · intro q j hq hle
      simp only [List.length_replicate]
      refine growLoop_le clp 64 0 1 q ?_ (by omega) ⟨0, rfl⟩ ⟨j, hq⟩
      rw [hq]
      exact Nat.one_le_two_pow
    · intro s hs
      rw [List.eq_of_mem_replicate hs]
      have hlen : (newSegment cap lf : Segment K V).table.length = cap := by
        simp [newSegment]
      refine ⟨⟨_, by rw [hlen, hcappow]⟩, ?_, ?_, ?_⟩
      · rw [hlen, hcappow]
        exact Nat.one_le_two_pow
      · rw [hlen]
        simp only [List.length_replicate]
        calc (min ic (MAXIMUM_CAPACITY : Int)).toNat = icc := hiccmin.symm
        _ ≤ c * ssize := hceil1
        _ ≤ cap * ssize := Nat.mul_le_mul_right ssize hcapge
      · intro q j hq hle
        rw [hlen]
        simp only [List.length_replicate] at hle
        have hcq : c ≤ q := hceil2 q (by rw [hiccmin]; exact hle)
        refine growLoop_le c 64 0 1 q ?_ hcq ⟨0, rfl⟩ ⟨j, hq⟩
        rw [hq]
        exact Nat.one_le_two_pow

theorem C9_construction_sizing_witness :
    (∃ j, c9map.segments.length = 2 ^ j) ∧
      (min (16 : Int) (MAX_SEGMENTS : Int)).toNat ≤ c9map.segments.length ∧
      (∃ j, (c9map.segments.getD 0 defaultSeg).table.length = 2 ^ j) ∧
      1 ≤ (c9map.segments.getD 0 defaultSeg).table.length ∧
      (c9map.segments.getD 0 defaultSeg).table.length ≤ 1 :=
  have h := C9_construction_sizing 0 (mkRat 3 4) 16 c9map rfl
  have hs := h.2.2.2 _ (by decide : c9map.segments.getD 0 defaultSeg ∈ c9map.segments)
  ⟨h.1, h.2.1, hs.1, hs.2.1, hs.2.2.2 1 0 rfl (by decide)⟩

/-- C10: calling the variadic constructor with any present parameter of the
wrong dynamic type — positions 0 and 2 not `int`, position 1 not `float32`
(e.g. an untyped float literal, which is `float64`) — panics with
`IllegalArgError`, whatever the values are. -/
theorem C10_wrong_dynamic_type (ps : List GoVal)
    (hbad : (∃ v, ps.get? 0 = some v ∧ ∀ n, v ≠ .vInt n) ∨
      (∃ v, ps.get? 1 = some v ∧ ∀ x, v ≠ .vFloat32 x) ∨
      (∃ v, ps.get? 2 = some v ∧ ∀ n, v ≠ .vInt n)) :
    (NewConcurrentMap ps : Except GoError (CMap K V)) = .error .IllegalArgError := by
  rcases ps with _ | ⟨p0, _ | ⟨p1, _ | ⟨p2, rest⟩⟩⟩
  · rcases hbad with ⟨v, hv, _⟩ | ⟨v, hv, _⟩ | ⟨v, hv, _⟩ <;> cases hv
  · rcases p0 with n | x | t
    · rcases hbad with ⟨v, hv, hne⟩ | ⟨v, hv, _⟩ | ⟨v, hv, _⟩
      · cases hv; exact absurd rfl (hne n)
      · cases hv
      · cases hv
    · rfl
    · rfl
  · rcases p0 with n | x | t
    · rcases p1 with n1 | x1 | t1
      · rfl
      · rcases hbad with ⟨v, hv, hne⟩ | ⟨v, hv, hne⟩ | ⟨v, hv, _⟩
        · cases hv; exact absurd rfl (hne n)
        · cases hv; exact absurd rfl (hne x1)
        · cases hv
      · rfl
    · rfl
    · rfl
  · rcases p0 with n | x | t
    · rcases p1 with n1 | x1 | t1
      · rfl
      · rcases p2 with n2 | x2 | t2
        · rcases hbad with ⟨v, hv, hne⟩ | ⟨v, hv, hne⟩ | ⟨v, hv, hne⟩
          · cases hv; exact absurd rfl (hne n)
          · cases hv; exact absurd rfl (hne x1)
          · cases hv; exact absurd rfl (hne n2)
        · simp [NewConcurrentMap]
          rfl
        · simp [NewConcurrentMap]
          rfl
      · rfl
    · rfl
    · rfl

theorem C10_wrong_dynamic_type_witness :
    (NewConcurrentMap [GoVal.vInt 16, GoVal.vOther 0] :
      Except GoError (CMap Nat String)) = .error .IllegalArgError :=
  C10_wrong_dynamic_type [GoVal.vInt 16, GoVal.vOther 0]
    (Or.inr (Or.inl ⟨GoVal.vOther 0, rfl, fun x h2 => GoVal.noConfusion h2⟩))

end GoConcurrent
